import Mathlib

/-!
Shallow embedding of the `acro-opensearch-store-node` repository
(`src/utils.ts`, `src/action.ts`, `src/engine.ts`) and proofs about it.

Conventions of the embedding:
* JavaScript runtime values that flow through the codec are modelled by the
  inductive type `Val` (strings, integers, booleans, null, objects as
  insertion-ordered association lists, arrays).  JS objects keep insertion
  order for string keys, which the association-list representation captures.
* `JSON.stringify` is modelled by `jsonStr` on this fragment (integers only;
  the repository's tests only exercise integer numerics, and no claim depends
  on float formatting).
* Reference identity (needed by the circular-reference breaker) cannot be
  observed on pure trees, so `removeSensitiveKeys` is modelled twice:
  - `removeSensitiveKeysP` on `Val` trees, where the `parents` identity
    checks can never fire (every subterm of a tree is a fresh node); this is
    the fragment the document codec uses, and
  - `rskF`, a fuel-indexed translation over an explicit heap of references,
    used to study cycle behaviour (`rskF fuel … = none` for every `fuel`
    models a run of the JS function that never returns).
-/

namespace AcroOS

/-- JSON-ish runtime value (the dynamic values the codec manipulates).
Objects are insertion-ordered association lists, as in JS. -/
inductive Val where
  | vstr (s : String)
  | vint (n : Int)
  | vbool (b : Bool)
  | vnull
  | obj (fields : List (String × Val))
  | arr (elems : List Val)

/-- Decimal digits of a natural number, least-significant first (`fuel`
bounds the digit count; structural so the kernel can evaluate it). -/
def natDigitsAux : Nat → Nat → List Char
  | 0, _ => []
  | fuel + 1, n =>
    let d := Char.ofNat (48 + n % 10)
    if n < 10 then [d] else d :: natDigitsAux fuel (n / 10)

/-- Decimal representation of a natural number. -/
def natDec (n : Nat) : String :=
  String.mk (natDigitsAux (n + 1) n).reverse

/-- Decimal representation of an integer (as `JSON.stringify` renders it). -/
def intDec : Int → String
  | Int.ofNat n => natDec n
  | Int.negSucc n => "-" ++ natDec (n + 1)

theorem natDigitsAux_ne_nil (fuel n : Nat) : natDigitsAux (fuel + 1) n ≠ [] := by
  unfold natDigitsAux
  by_cases h : n < 10 <;> simp [h]

theorem natDec_ne_empty (n : Nat) : natDec n ≠ "" := by
  unfold natDec
  intro h
  have h2 := congrArg String.data h
  simp at h2
  exact natDigitsAux_ne_nil n n h2

theorem intDec_ne_empty (n : Int) : intDec n ≠ "" := by
  cases n with
  | ofNat m => exact natDec_ne_empty m
  | negSucc m =>
    unfold intDec
    intro h
    have h2 := congrArg String.data h
    simp at h2

/-- Minimal JSON string escaping (backslash and double quote; the
repository's data never carries control characters through the paths the
claims exercise). -/
def jsonEscape (s : String) : String :=
  String.mk (s.data.flatMap fun c =>
    if c = '"' then ['\\', '"']
    else if c = '\\' then ['\\', '\\']
    else [c])

mutual

/-- Model of `JSON.stringify` on the `Val` fragment. -/
def jsonStr : Val → String
  | .vstr s => "\"" ++ jsonEscape s ++ "\""
  | .vint n => intDec n
  | .vbool b => if b then "true" else "false"
  | .vnull => "null"
  | .obj fields => "\x7b" ++ jsonStrFields fields ++ "\x7d"
  | .arr elems => "[" ++ jsonStrElems elems ++ "]"

def jsonStrFields : List (String × Val) → String
  | [] => ""
  | [(k, v)] => "\"" ++ jsonEscape k ++ "\":" ++ jsonStr v
  | (k, v) :: rest =>
    "\"" ++ jsonEscape k ++ "\":" ++ jsonStr v ++ "," ++ jsonStrFields rest

def jsonStrElems : List Val → String
  | [] => ""
  | [v] => jsonStr v
  | v :: rest => jsonStr v ++ "," ++ jsonStrElems rest

end

theorem String_append_data (a b : String) : (a ++ b).data = a.data ++ b.data := rfl

theorem jsonStr_ne_empty (v : Val) : jsonStr v ≠ "" := by
  intro h
  have h2 := congrArg String.data h
  cases v with
  | vstr s => simp [jsonStr, String_append_data] at h2
  | vint n => exact intDec_ne_empty n h
  | vbool b => cases b <;> simp [jsonStr] at h2
  | vnull => simp [jsonStr] at h2
  | obj fields => simp [jsonStr, String_append_data] at h2
  | arr elems => simp [jsonStr, String_append_data] at h2

/-- JS truthiness of a `Val` (used by `action.id || id`,
`change.before ? … : undefined`, and the request `.filter((v) => v?.value)`). -/
def truthyVal : Val → Bool
  | .vstr s => s ≠ ""
  | .vint n => n ≠ 0
  | .vbool b => b
  | .vnull => false
  | .obj _ => true
  | .arr _ => true

/-- Key lookup in an insertion-ordered JS object (first occurrence). -/
def getKey (fields : List (String × α)) (k : String) : Option α :=
  match fields with
  | [] => none
  | (k', v) :: rest => if k' = k then some v else getKey rest k

/-- JS property assignment `obj[k] = v`: an existing key keeps its position,
a new key is appended. -/
def jsSet (fields : List (String × α)) (k : String) (v : α) : List (String × α) :=
  match fields with
  | [] => [(k, v)]
  | (k', v') :: rest => if k' = k then (k, v) :: rest else (k', v') :: jsSet rest k v

theorem getKey_jsSet_same (fields : List (String × α)) (k : String) (v : α) :
    getKey (jsSet fields k v) k = some v := by
  induction fields with
  | nil => simp [jsSet, getKey]
  | cons hd tl ih =>
    obtain ⟨k', v'⟩ := hd
    by_cases h : k' = k <;> simp [jsSet, getKey, h, ih]

theorem getKey_jsSet_other (fields : List (String × α)) (k k2 : String) (v : α)
    (hne : k ≠ k2) : getKey (jsSet fields k v) k2 = getKey fields k2 := by
  induction fields with
  | nil => simp [jsSet, getKey, hne]
  | cons hd tl ih =>
    obtain ⟨k', v'⟩ := hd
    by_cases h : k' = k
    · subst h
      simp [jsSet, getKey, hne]
    · by_cases h2 : k' = k2
      · subst h2
        simp [jsSet, getKey, h, Ne.symm hne]
      · simp [jsSet, getKey, h, h2, ih]

theorem getKey_none_append (a b : List (String × α)) (k : String)
    (h : getKey a k = none) : getKey (a ++ b) k = getKey b k := by
  induction a with
  | nil => simp
  | cons hd tl ih =>
    obtain ⟨k', v'⟩ := hd
    by_cases hk : k' = k
    · simp [getKey, hk] at h
    · simp only [getKey, hk, if_false, List.cons_append] at h ⊢
      exact ih h

theorem jsSet_of_getKey_none (fields : List (String × α)) (k : String) (v : α)
    (h : getKey fields k = none) : jsSet fields k v = fields ++ [(k, v)] := by
  induction fields with
  | nil => simp [jsSet]
  | cons hd tl ih =>
    obtain ⟨k', v'⟩ := hd
    by_cases hk : k' = k
    · simp [getKey, hk] at h
    · simp only [getKey, hk, if_false] at h
      simp [jsSet, hk, ih h]

/-- Folding JS property assignments of pairwise-fresh keys over an object
appends them in order (the shape `arr.reduce((obj, item) => { obj[item.key] =
item.value; return obj; }, init)` takes on duplicate-free input). -/
theorem foldl_jsSet_of_fresh (items : List (String × α)) :
    ∀ acc : List (String × α),
    (∀ p ∈ items, getKey acc p.1 = none) → (items.map Prod.fst).Nodup →
    items.foldl (fun o kv => jsSet o kv.1 kv.2) acc = acc ++ items := by
  induction items with
  | nil => intro acc _ _; simp
  | cons hd tl ih =>
    intro acc hfresh hnodup
    obtain ⟨k, v⟩ := hd
    simp only [List.foldl_cons]
    have hk : getKey acc k = none := hfresh (k, v) (by simp)
    rw [jsSet_of_getKey_none acc k v hk]
    simp only [List.map_cons, List.nodup_cons] at hnodup
    rw [ih (acc ++ [(k, v)]) ?_ hnodup.2]
    · simp
    · intro p hp
      rw [getKey_none_append acc [(k, v)] p.1 (hfresh p (by simp [hp]))]
      have hne : k ≠ p.1 := by
        intro hEq
        exact hnodup.1 (hEq ▸ (List.mem_map_of_mem Prod.fst hp))
      simp [getKey, hne]

/-! ### `removeSensitiveKeys` on pure trees (`src/utils.ts` lines 36–96)

On tree-shaped (unaliased, acyclic) values, the `parents?.includes(...)`,
`object[key] === object` and `elem !== object` reference-identity checks of
the source can never succeed, because every subterm is a distinct node.  The
remaining behaviour — recursing through objects and arrays, dropping
properties whose name is in `keys`, passing primitives through — is captured
here.  (Reference behaviour, including cycles, is modelled separately below
by `rskF` over an explicit heap.) -/

mutual

def removeSensitiveKeysP (keys : List String) : Val → Val
  | .vstr s => .vstr s
  | .vint n => .vint n
  | .vbool b => .vbool b
  | .vnull => .vnull
  | .obj fields => .obj (removeSensitiveKeysFieldsP keys fields)
  | .arr elems => .arr (removeSensitiveKeysElemsP keys elems)

def removeSensitiveKeysFieldsP (keys : List String) :
    List (String × Val) → List (String × Val)
  | [] => []
  | (k, v) :: rest =>
    if keys.contains k then removeSensitiveKeysFieldsP keys rest
    else (k, removeSensitiveKeysP keys v) :: removeSensitiveKeysFieldsP keys rest

def removeSensitiveKeysElemsP (keys : List String) : List Val → List Val
  | [] => []
  | v :: rest => removeSensitiveKeysP keys v :: removeSensitiveKeysElemsP keys rest

end

/-- `breakCircularReferences` (`src/utils.ts` lines 104–106): delegates to
`removeSensitiveKeys` with an empty key list. -/
def breakCircularReferencesP (v : Val) : Val :=
  removeSensitiveKeysP [] v

mutual

theorem removeSensitiveKeysP_nil_id : ∀ v : Val, removeSensitiveKeysP [] v = v
  | .vstr _ => rfl
  | .vint _ => rfl
  | .vbool _ => rfl
  | .vnull => rfl
  | .obj fields => by
    rw [removeSensitiveKeysP, removeSensitiveKeysFieldsP_nil_id fields]
  | .arr elems => by
    rw [removeSensitiveKeysP, removeSensitiveKeysElemsP_nil_id elems]

theorem removeSensitiveKeysFieldsP_nil_id :
    ∀ fs : List (String × Val), removeSensitiveKeysFieldsP [] fs = fs
  | [] => rfl
  | (k, v) :: rest => by
    rw [removeSensitiveKeysFieldsP]
    simp [removeSensitiveKeysP_nil_id v, removeSensitiveKeysFieldsP_nil_id rest]

theorem removeSensitiveKeysElemsP_nil_id :
    ∀ es : List Val, removeSensitiveKeysElemsP [] es = es
  | [] => rfl
  | v :: rest => by
    rw [removeSensitiveKeysElemsP]
    simp [removeSensitiveKeysP_nil_id v, removeSensitiveKeysElemsP_nil_id rest]

end

theorem breakCircularReferencesP_id (v : Val) : breakCircularReferencesP v = v :=
  removeSensitiveKeysP_nil_id v

/-! ### The Map⇄List codec (`src/utils.ts` lines 148–169) -/

/-- One `{key, value}` record of a flattened metadata map. -/
structure KV where
  key : String
  value : String

/-- The string stored for a map value: strings verbatim, anything else
JSON-encoded after cycle-breaking (`transformObjectToArray`'s value rule). -/
def strOfVal : Val → String
  | .vstr s => s
  | v => jsonStr (breakCircularReferencesP v)

/-- `transformArrayToObject` (`src/utils.ts` lines 148–156). -/
def transformArrayToObject : Option (List KV) → Option (List (String × String))
  | none => none
  | some arr => some (arr.foldl (fun o item => jsSet o item.key item.value) [])

/-- `transformObjectToArray` (`src/utils.ts` lines 158–169). -/
def transformObjectToArray : Option (List (String × Val)) → Option (List KV)
  | none => none
  | some obj => some (obj.map fun kv => ⟨kv.1, strOfVal kv.2⟩)

/-- Round trip of one metadata map with duplicate-free keys: every key
survives in order and every value is replaced by its stored string form. -/
theorem transform_round_trip (m : List (String × Val))
    (h : (m.map Prod.fst).Nodup) :
    transformArrayToObject (transformObjectToArray (some m)) =
      some (m.map fun kv => (kv.1, strOfVal kv.2)) := by
  simp only [transformObjectToArray, transformArrayToObject]
  have := foldl_jsSet_of_fresh (m.map fun kv => (kv.1, strOfVal kv.2)) []
    (by intro p _; simp [getKey]) (by simpa using h)
  simp only [List.nil_append] at this
  rw [show (m.map fun kv => KV.mk kv.1 (strOfVal kv.2)).foldl
        (fun o item => jsSet o item.key item.value) [] =
      (m.map fun kv => (kv.1, strOfVal kv.2)).foldl
        (fun o kv => jsSet o kv.1 kv.2) [] by
    rw [List.foldl_map, List.foldl_map]]
  rw [this]

/-! ### Reference semantics of `removeSensitiveKeys` over an explicit heap

JS objects and arrays are heap references; the `parents` bookkeeping of
`removeSensitiveKeys` observes reference identity.  We model the heap as a
map from addresses to nodes and index the recursion by fuel: a run of the JS
function terminates iff some fuel makes the model return `some`. -/

/-- JS primitive values (pass through the normalizer unchanged). -/
inductive JPrim where
  | num (n : Int)
  | str (s : String)
  | jnull
  | undef
  deriving DecidableEq

/-- A JS value: a primitive or a reference into the heap. -/
inductive JRef where
  | prim (p : JPrim)
  | ptr (a : Nat)
  deriving DecidableEq

/-- A heap node: a plain object (ordered fields) or an array. -/
inductive Node where
  | nobj (fields : List (String × JRef))
  | narr (elems : List JRef)

def Heap := Nat → Node

/-- The pure result tree the normalizer builds. -/
inductive JVal where
  | prim (p : JPrim)
  | obj (fields : List (String × JVal))
  | arr (elems : List JVal)

/-- Optional map that propagates failure (fuel exhaustion). -/
def mapOpt (f : α → Option β) : List α → Option (List β)
  | [] => some []
  | x :: xs =>
    match f x with
    | none => none
    | some y =>
      match mapOpt f xs with
      | none => none
      | some ys => some (y :: ys)

/-- The source's circular-reference test for a property value:
`parents?.includes(object[key]) || object[key] === object`.  Only references
can be identical to an ancestor object. -/
def circularHit (parents : List Nat) (a : Nat) : JRef → Bool
  | .ptr b => parents.contains b || b == a
  | .prim _ => false

/-- The `Object.keys(object).reduce(...)` body of `removeSensitiveKeys`:
processes the fields of the object at address `a` in order.  `child` is the
recursive call at one less fuel. -/
def rskObjFields (child : JRef → List Nat → Option JVal) (h : Heap) (a : Nat)
    (keys : List String) (parents : List Nat) :
    List (String × JRef) → Option (List (String × JVal))
  | [] => some []
  | (k, v) :: rest =>
    if keys.contains k then rskObjFields child h a keys parents rest
    else if circularHit parents a v then rskObjFields child h a keys parents rest
    else
      match v with
      | .prim p =>
        (rskObjFields child h a keys parents rest).map fun tail => (k, .prim p) :: tail
      | .ptr b =>
        match h b with
        | .narr elems =>
          -- array property: drop only elements identical to THIS object
          -- (`.filter((elem) => elem !== object)`), then recurse per element
          match mapOpt (fun e => child e (parents ++ [a]))
              (elems.filter fun e => e ≠ .ptr a) with
          | none => none
          | some es =>
            (rskObjFields child h a keys parents rest).map fun tail => (k, .arr es) :: tail
        | .nobj _ =>
          match child (.ptr b) (parents ++ [a]) with
          | none => none
          | some cv =>
            (rskObjFields child h a keys parents rest).map fun tail => (k, cv) :: tail

/-- Fuel-indexed reference-level `removeSensitiveKeys` (`src/utils.ts`
lines 36–96).  `none` means the run did not finish within `fuel` nested
calls; the JS function terminates on an input iff some fuel returns `some`. -/
def rskF : Nat → Heap → JRef → List String → List Nat → Option JVal
  | 0, _, _, _, _ => none
  | fuel + 1, h, r, keys, parents =>
    match r with
    | .prim p => some (.prim p)
    | .ptr a =>
      match h a with
      | .narr elems =>
        (mapOpt (fun e => rskF fuel h e keys (parents ++ [a])) elems).map JVal.arr
      | .nobj fields =>
        (rskObjFields (fun e ps => rskF fuel h e keys ps) h a keys parents
          fields).map JVal.obj

/-- Heap of the cyclic input `a = \x7b d: [b] \x7d; b = \x7b e: [a] \x7d`:
a cycle that passes through two arrays, so every back-edge is an array
element pointing at a non-immediate ancestor. -/
def cycHeap : Heap := fun a =>
  match a with
  | 0 => .nobj [("d", .ptr 1)]
  | 1 => .narr [.ptr 2]
  | 2 => .nobj [("e", .ptr 3)]
  | _ => .narr [.ptr 0]

theorem rskF_cycHeap_aux : ∀ fuel (ps : List Nat),
    ps.contains 1 = false → ps.contains 3 = false →
    rskF fuel cycHeap (.ptr 0) [] ps = none ∧
      rskF fuel cycHeap (.ptr 2) [] ps = none := by
  intro fuel
  induction fuel with
  | zero => intro ps _ _; exact ⟨rfl, rfl⟩
  | succ n ih =>
    intro ps h1 h3
    have h1m : (1 : Nat) ∉ ps := by simpa using h1
    have h3m : (3 : Nat) ∉ ps := by simpa using h3
    constructor
    · have hchild := (ih (ps ++ [0]) (by simp_all) (by simp_all)).2
      simp [rskF, cycHeap, rskObjFields, circularHit, h1m, mapOpt, hchild]
    · have hchild := (ih (ps ++ [2]) (by simp_all) (by simp_all)).1
      simp [rskF, cycHeap, rskObjFields, circularHit, h3m, mapOpt, hchild]

/-! ### UTC date-time model (the fragment of `luxon` the engine uses)

The engine only ever works in the `utc` zone, so a calendar tuple with
lexicographic comparison is a faithful model of `DateTime` instants. -/

/-- A UTC instant, millisecond precision. -/
structure DT where
  year : Nat
  month : Nat
  day : Nat
  hour : Nat
  minute : Nat
  second : Nat
  ms : Nat
  deriving DecidableEq, Repr

/-- Strict order of instants (same as comparing epoch milliseconds for
valid calendar dates). -/
def dtLT (a b : DT) : Bool :=
  if a.year ≠ b.year then a.year < b.year
  else if a.month ≠ b.month then a.month < b.month
  else if a.day ≠ b.day then a.day < b.day
  else if a.hour ≠ b.hour then a.hour < b.hour
  else if a.minute ≠ b.minute then a.minute < b.minute
  else if a.second ≠ b.second then a.second < b.second
  else a.ms < b.ms

def isLeapYear (y : Nat) : Bool :=
  (y % 4 = 0 && y % 100 ≠ 0) || y % 400 = 0

def daysInMonth (y m : Nat) : Nat :=
  if m = 2 then (if isLeapYear y then 29 else 28)
  else if m = 4 || m = 6 || m = 9 || m = 11 then 30
  else 31

/-- `DateTime.plus(\x7b months: k \x7d)`: month arithmetic with the day
clamped to the target month's length, time of day unchanged. -/
def plusMonths (dt : DT) (k : Nat) : DT :=
  let total := dt.year * 12 + (dt.month - 1) + k
  let y := total / 12
  let m := total % 12 + 1
  { dt with year := y, month := m, day := min dt.day (daysInMonth y m) }

/-- `DateTime.minus(\x7b months: k \x7d)` (same clamping rule). -/
def minusMonths (dt : DT) (k : Nat) : DT :=
  let total := dt.year * 12 + (dt.month - 1) - k
  let y := total / 12
  let m := total % 12 + 1
  { dt with year := y, month := m, day := min dt.day (daysInMonth y m) }

def pad2 (n : Nat) : String :=
  if n < 10 then "0" ++ natDec n else natDec n

def pad3 (n : Nat) : String :=
  if n < 10 then "00" ++ natDec n
  else if n < 100 then "0" ++ natDec n
  else natDec n

def pad4 (n : Nat) : String :=
  if n < 10 then "000" ++ natDec n
  else if n < 100 then "00" ++ natDec n
  else if n < 1000 then "0" ++ natDec n
  else natDec n

/-- `DateTime.toISO()` of a UTC instant:
`yyyy-MM-ddTHH:mm:ss.SSSZ`. -/
def toISO (dt : DT) : String :=
  pad4 dt.year ++ "-" ++ pad2 dt.month ++ "-" ++ pad2 dt.day ++ "T" ++
    pad2 dt.hour ++ ":" ++ pad2 dt.minute ++ ":" ++ pad2 dt.second ++ "." ++
    pad3 dt.ms ++ "Z"

/-- Split a character list at every occurrence of `c`. -/
def splitOnChar (c : Char) : List Char → List (List Char)
  | [] => [[]]
  | x :: xs =>
    if x = c then [] :: splitOnChar c xs
    else
      match splitOnChar c xs with
      | [] => [[x]]
      | h :: t => (x :: h) :: t

def digitsToNatAux : List Char → Nat → Option Nat
  | [], acc => some acc
  | c :: cs, acc =>
    if 48 ≤ c.toNat && c.toNat ≤ 57 then
      digitsToNatAux cs (acc * 10 + (c.toNat - 48))
    else none

/-- Parse a non-empty run of decimal digits. -/
def digitsToNat? : List Char → Option Nat
  | [] => none
  | l => digitsToNatAux l 0

/-- Parse the fractional-seconds part into milliseconds
(`.5` = 500 ms, `.999` = 999 ms). -/
def fracToMs (frac : List Char) : Option Nat :=
  digitsToNat? ((frac ++ ['0', '0', '0']).take 3)

def parseDatePart (s : List Char) : Option (Nat × Nat × Nat) :=
  match splitOnChar '-' s with
  | [ys, ms, ds] => do
    let y ← digitsToNat? ys
    let m ← digitsToNat? ms
    let d ← digitsToNat? ds
    if 1 ≤ m && m ≤ 12 && 1 ≤ d && d ≤ daysInMonth y m then
      some (y, m, d)
    else none
  | _ => none

def parseTimePart (s : List Char) : Option (Nat × Nat × Nat × Nat) :=
  match splitOnChar ':' s with
  | [hs, mins, secs] => do
    let h ← digitsToNat? hs
    let mi ← digitsToNat? mins
    let (sec, msec) ←
      match splitOnChar '.' secs with
      | [ss] => do
        let sec ← digitsToNat? ss
        some (sec, 0)
      | [ss, frac] => do
        let sec ← digitsToNat? ss
        let msec ← fracToMs frac
        some (sec, msec)
      | _ => none
    if h ≤ 23 && mi ≤ 59 && sec ≤ 59 then some (h, mi, sec, msec) else none
  | _ => none

/-- `DateTime.fromISO(s, \x7b zone: "utc" \x7d)` on the formats the engine
receives (date, optionally `T` + time, optionally a trailing `Z`).
`none` models an invalid `DateTime`. -/
def fromISO (s : String) : Option DT :=
  let l := s.data
  let l := if l.getLast? = some 'Z' then l.dropLast else l
  match splitOnChar 'T' l with
  | [d] => do
    let (y, m, dd) ← parseDatePart d
    some ⟨y, m, dd, 0, 0, 0, 0⟩
  | [d, t] => do
    let (y, m, dd) ← parseDatePart d
    let (h, mi, sec, msec) ← parseTimePart t
    some ⟨y, m, dd, h, mi, sec, msec⟩
  | _ => none

/-- Strip `pat` from the front of `s`, returning the remainder. -/
def dropPat : List Char → List Char → Option (List Char)
  | [], rest => some rest
  | _ :: _, [] => none
  | p :: ps, x :: xs => if x = p then dropPat ps xs else none

def replaceAllAux (pat rep : List Char) : Nat → List Char → List Char
  | 0, s => s
  | _ + 1, [] => []
  | fuel + 1, x :: xs =>
    match dropPat pat (x :: xs) with
    | some rest => rep ++ replaceAllAux pat rep fuel rest
    | none => x :: replaceAllAux pat rep fuel xs

/-- `String.prototype.replace` with a global (non-empty) pattern: replace
every occurrence of `pat` by `rep`. -/
def replaceAll (s pat rep : String) : String :=
  String.mk (replaceAllAux pat.data rep.data (s.data.length + 1) s.data)

/-! ### Index routing (`src/engine.ts` lines 430–491) -/

/-- The default `_indexPattern`. -/
def defaultIndexPattern : String :=
  "actions_\x7bcompanyId\x7d_\x7byear\x7d_\x7bmonth\x7d"

/-- Render one index name from the pattern
(`.replace(/\x7bcompanyId\x7d/g, …).replace(/\x7byear\x7d/g, …)
.replace(/\x7bmonth\x7d/g, …)`). -/
def renderIndexName (pattern companyId year month : String) : String :=
  replaceAll (replaceAll (replaceAll pattern "\x7bcompanyId\x7d" companyId)
    "\x7byear\x7d" year) "\x7bmonth\x7d" month

/-- `getIndexName` (`src/engine.ts` lines 430–443): the write index for an
action, from the action's UTC timestamp.  An unparseable timestamp gives the
JS `NaN` renderings. -/
def getIndexName (pattern : String) (companyId : Option String)
    (timestamp : String) : String :=
  match fromISO timestamp with
  | some dt =>
    let month0 := natDec dt.month
    let month := if month0.length = 1 then "0" ++ month0 else month0
    renderIndexName pattern (match companyId with
      | some c => if c = "" then "" else c
      | none => "") (natDec dt.year) month
  | none => renderIndexName pattern (match companyId with
      | some c => if c = "" then "" else c
      | none => "") "NaN" "NaN"

/-- `Interval.splitBy(\x7b month: 1 \x7d)` (luxon): starting from `s`,
repeatedly cut at `start + idx` months (computed from the original start),
clipping the final piece at `e`.  Returns the sub-intervals in order.  Fuel
bounds the loop; `4800` covers four centuries of months. -/
def splitByMonthAux (start e : DT) : Nat → Nat → DT → List (DT × DT)
  | 0, _, _ => []
  | fuel + 1, idx, s =>
    if dtLT s e then
      let added := plusMonths start idx
      let next := if dtLT e added then e else added
      (s, next) :: splitByMonthAux start e fuel (idx + 1) next
    else []

def splitByMonth (start e : DT) : List (DT × DT) :=
  splitByMonthAux start e 4800 1 start

/-- `getIndexNameRange` (`src/engine.ts` lines 450–491): resolve the start
(default `now − defaultStartMonthsAgo` months) and end (default `now`),
split into month-long pieces, and render one index name per piece from the
piece's **end** instant, comma-joined. -/
def getIndexNameRange (pattern : String) (defaultStartMonthsAgo : Nat)
    (now : DT) (companyId : String) (start stop : Option String) : String :=
  let startDate : Option DT :=
    match start with
    | some s => if s = "" then some (minusMonths now defaultStartMonthsAgo) else fromISO s
    | none => some (minusMonths now defaultStartMonthsAgo)
  let endDate : Option DT :=
    match stop with
    | some s => if s = "" then some now else fromISO s
    | none => some now
  match startDate, endDate with
  | some sd, some ed =>
    String.intercalate ","
      ((splitByMonth sd ed).map fun d =>
        renderIndexName pattern companyId (pad4 (d.2.year)) (pad2 (d.2.month)))
  | _, _ => ""

/-! ### The Action data model (`src/action.ts` and `@acro-sdk/common-store`)

`Action` is the canonical, application-facing record; `OpenSearchAction` is
the storage shape in which every metadata map is a `\x7bkey, value\x7d`
list, `request` is a `\x7bkey, parent?, value\x7d` list and
`changes[].before/after` are strings. -/

structure Framework where
  name : Option String
  version : Option String

structure ActionBody where
  id : Option String
  type : String
  verb : String
  object : Option String

/-- Canonical agent/target (metadata still a map). -/
structure AgentA where
  id : Option String
  type : String
  name : Option String
  meta : Option (List (String × Val))

/-- Storage agent/target (metadata flattened). -/
structure AgentOS where
  id : Option String
  type : String
  name : Option String
  meta : Option (List KV)

/-- One flattened `request` entry. -/
structure ReqEntry where
  key : String
  parent : Option String
  value : String

structure ResponseA where
  status : Option String
  time : Option Int
  body : Option (List (String × Val))
  headers : Option (List (String × Val))

structure ResponseOS where
  status : Option String
  time : Option Int
  body : Option (List KV)
  headers : Option (List KV)

structure ChangeA where
  model : String
  operation : String
  id : Option String
  path : Option String
  before : Option Val
  after : Option Val
  meta : Option (List (String × Val))

structure ChangeOS where
  model : String
  operation : String
  id : Option String
  path : Option String
  before : Option String
  after : Option String
  meta : Option (List KV)

structure CostComponent where
  type : Option String
  key : String
  amount : Int

structure CostA where
  amount : Int
  currency : String
  components : Option (List CostComponent)
  meta : Option (List (String × Val))

structure CostOS where
  amount : Int
  currency : String
  components : Option (List CostComponent)
  meta : Option (List KV)

/-- Canonical Action. -/
structure Action where
  id : Option String
  timestamp : String
  companyId : Option String
  clientId : Option String
  app : Option String
  environment : Option String
  framework : Option Framework
  sessionId : Option String
  traceIds : Option (List String)
  action : ActionBody
  agents : List AgentA
  targets : Option (List AgentA)
  request : Option (List (String × Val))
  response : Option ResponseA
  changes : Option (List ChangeA)
  cost : Option CostA
  meta : Option (List (String × Val))

/-- Storage document. -/
structure OpenSearchAction where
  id : Option String
  timestamp : String
  companyId : Option String
  clientId : Option String
  app : Option String
  environment : Option String
  framework : Option Framework
  sessionId : Option String
  traceIds : Option (List String)
  action : ActionBody
  agents : List AgentOS
  targets : Option (List AgentOS)
  request : Option (List ReqEntry)
  response : Option ResponseOS
  changes : Option (List ChangeOS)
  cost : Option CostOS
  meta : Option (List KV)

/-! ### `OpenSearchEngine.serialize` (`src/engine.ts` lines 109–196) -/

def serializeAgent (a : AgentA) : AgentOS :=
  ⟨a.id, a.type, a.name, transformObjectToArray a.meta⟩

/-- The string stored for one inner leaf of a request sub-object: the leaf
itself when it is a string, otherwise the JSON encoding of the whole
enclosing sub-object `fields` (this is the source's
`JSON.stringify(breakCircularReferences(value))`, which names the parent
`value`, not the leaf `nestedValue`). -/
def innerValStr (fields : List (String × Val)) (iv : Val) : String :=
  match iv with
  | .vstr s => s
  | _ => jsonStr (breakCircularReferencesP (Val.obj fields))

/-- The entries one top-level request key produces: a plain-object value
turns into one entry per inner key carrying `parent`, anything else into one
top-level entry. -/
def serializeGroup (k : String) (v : Val) : List ReqEntry :=
  match v with
  | .obj fields =>
    fields.map fun ikv => ReqEntry.mk ikv.1 (some k) (innerValStr fields ikv.2)
  | v => [ReqEntry.mk k none (strOfVal v)]

/-- The request flattening rule of `serialize`
(`Object.entries(action.request).flatMap(...)`); entries whose stored value
is falsy (the empty string) are dropped by the trailing
`.filter((v) => v?.value)`. -/
def serializeRequest (req : List (String × Val)) : List ReqEntry :=
  (req.flatMap fun kv => serializeGroup kv.1 kv.2).filter fun e => e.value ≠ ""

/-- `change.before ? (typeof change.before === "string" ? change.before :
JSON.stringify(breakCircularReferences(change.before))) : undefined`. -/
def serializeBeforeAfter (v : Option Val) : Option String :=
  v.bind fun v => if truthyVal v then some (strOfVal v) else none

def serializeChange (c : ChangeA) : ChangeOS :=
  ⟨c.model, c.operation, c.id, c.path, serializeBeforeAfter c.before,
    serializeBeforeAfter c.after, transformObjectToArray c.meta⟩

def serialize (a : Action) : OpenSearchAction where
  id := a.id
  timestamp := a.timestamp
  companyId := a.companyId
  clientId := a.clientId
  app := a.app
  environment := a.environment
  framework := a.framework
  sessionId := a.sessionId
  traceIds := a.traceIds
  action := a.action
  agents := a.agents.map serializeAgent
  targets := a.targets.map (List.map serializeAgent)
  request := a.request.map serializeRequest
  response := a.response.map fun r =>
    ⟨r.status, r.time, transformObjectToArray r.body, transformObjectToArray r.headers⟩
  changes := a.changes.map (List.map serializeChange)
  cost := a.cost.map fun c =>
    ⟨c.amount, c.currency, c.components, transformObjectToArray c.meta⟩
  meta := transformObjectToArray a.meta

/-! ### `OpenSearchEngine.deserialize` (`src/engine.ts` lines 203–262) -/

/-- A read-back metadata list as a map whose values are (string) dynamic
values. -/
def arrToValObj (m : Option (List KV)) : Option (List (String × Val)) :=
  (transformArrayToObject m).map (List.map fun kv => (kv.1, Val.vstr kv.2))

def deserializeAgent (a : AgentOS) : AgentA :=
  ⟨a.id, a.type, a.name, arrToValObj a.meta⟩

/-- One step of the `action.request?.reduce(...)` accumulator: a top-level
entry is a plain assignment; a nested entry initialises `obj[parent]` to
`\x7b\x7d` when it is falsy and then assigns into it (an assignment into a
truthy non-object is a silent no-op, as in JS). -/
def dstep (o : List (String × Val)) (item : ReqEntry) : List (String × Val) :=
  match item.parent with
  | none => jsSet o item.key (.vstr item.value)
  | some p =>
    match getKey o p with
    | none => jsSet o p (Val.obj [(item.key, .vstr item.value)])
    | some v =>
      if truthyVal v then
        match v with
        | .obj fs => jsSet o p (.obj (jsSet fs item.key (.vstr item.value)))
        | _ => o
      else jsSet o p (Val.obj [(item.key, .vstr item.value)])

def deserializeRequest (entries : List ReqEntry) : List (String × Val) :=
  entries.foldl dstep []

def deserializeChange (c : ChangeOS) : ChangeA :=
  ⟨c.model, c.operation, c.id, c.path, c.before.map Val.vstr,
    c.after.map Val.vstr, arrToValObj c.meta⟩

def deserialize (o : OpenSearchAction) : Action where
  id := o.id
  timestamp := o.timestamp
  companyId := o.companyId
  clientId := o.clientId
  app := o.app
  environment := o.environment
  framework := o.framework
  sessionId := o.sessionId
  traceIds := o.traceIds
  action := o.action
  agents := o.agents.map deserializeAgent
  targets := o.targets.map (List.map deserializeAgent)
  request := o.request.map deserializeRequest
  response := o.response.map fun r =>
    ⟨r.status, r.time, arrToValObj r.body, arrToValObj r.headers⟩
  changes := o.changes.map (List.map deserializeChange)
  cost := o.cost.map fun c => ⟨c.amount, c.currency, c.components, arrToValObj c.meta⟩
  meta := arrToValObj o.meta

/-! ### The round-trip normal form

`canonAction a` is what one write/read cycle leaves of `a`: every leaf is
stringified (strings verbatim, everything else JSON-encoded — nested
non-string request leaves as the JSON of their enclosing sub-object),
request entries whose stored string is empty are dropped (together with
sub-objects left empty), and falsy `changes[].before/after` values are
dropped.  The amended round-trip claim is
`deserialize (serialize a) = canonAction a`. -/

def canonMap (m : List (String × Val)) : List (String × Val) :=
  m.map fun kv => (kv.1, Val.vstr (strOfVal kv.2))

def canonAgent (a : AgentA) : AgentA :=
  { a with meta := a.meta.map canonMap }

/-- Canonical inner fields of one request sub-object (empty stored strings
dropped; non-string leaves replaced by the JSON of the whole sub-object,
mirroring the source). -/
def canonReqFields (fields : List (String × Val)) : List (String × Val) :=
  fields.filterMap fun ikv =>
    let s := innerValStr fields ikv.2
    if s = "" then none else some (ikv.1, Val.vstr s)

/-- What one write/read cycle leaves of one top-level request key. -/
def canonGroup (k : String) (v : Val) : Option (String × Val) :=
  match v with
  | .obj fields =>
    match canonReqFields fields with
    | [] => none
    | fs => some (k, Val.obj fs)
  | v =>
    let s := strOfVal v
    if s = "" then none else some (k, Val.vstr s)

def canonRequest (req : List (String × Val)) : List (String × Val) :=
  req.filterMap fun kv => canonGroup kv.1 kv.2

def canonBeforeAfter (v : Option Val) : Option Val :=
  v.bind fun v => if truthyVal v then some (Val.vstr (strOfVal v)) else none

def canonChange (c : ChangeA) : ChangeA :=
  { c with
    before := canonBeforeAfter c.before
    after := canonBeforeAfter c.after
    meta := c.meta.map canonMap }

def canonAction (a : Action) : Action :=
  { a with
    agents := a.agents.map canonAgent
    targets := a.targets.map (List.map canonAgent)
    request := a.request.map canonRequest
    response := a.response.map fun r =>
      { r with body := r.body.map canonMap, headers := r.headers.map canonMap }
    changes := a.changes.map (List.map canonChange)
    cost := a.cost.map fun c => { c with meta := c.meta.map canonMap }
    meta := a.meta.map canonMap }

/-! ### Well-formedness: duplicate-free keys (the spec's §3 invariant) -/

def uniqKeys (m : List (String × α)) : Prop :=
  (m.map Prod.fst).Nodup

def optUniq (o : Option (List (String × Val))) : Prop :=
  ∀ m, o = some m → uniqKeys m

/-- Duplicate-free keys at the top of `request` and inside each sub-object. -/
def WFRequest (req : List (String × Val)) : Prop :=
  uniqKeys req ∧ ∀ kv ∈ req,
    match kv.2 with
    | Val.obj fields => uniqKeys fields
    | _ => True

def WFAgent (a : AgentA) : Prop := optUniq a.meta

def WFAction (a : Action) : Prop :=
  (∀ ag ∈ a.agents, WFAgent ag) ∧
  (∀ ts, a.targets = some ts → ∀ ag ∈ ts, WFAgent ag) ∧
  (∀ req, a.request = some req → WFRequest req) ∧
  (∀ r, a.response = some r → optUniq r.body ∧ optUniq r.headers) ∧
  (∀ cs, a.changes = some cs → ∀ c ∈ cs, optUniq c.meta) ∧
  (∀ c, a.cost = some c → optUniq c.meta) ∧
  optUniq a.meta

/-! ### Round-trip lemmas for the document codec -/

theorem arrToValObj_transform (om : Option (List (String × Val))) (h : optUniq om) :
    arrToValObj (transformObjectToArray om) = om.map canonMap := by
  cases om with
  | none => rfl
  | some m =>
    have hu := h m rfl
    simp only [arrToValObj, transform_round_trip m hu, Option.map_some]
    simp [canonMap, Function.comp]

theorem getKey_append_last (o0 : List (String × α)) (k : String) (cur : α)
    (h : getKey o0 k = none) : getKey (o0 ++ [(k, cur)]) k = some cur := by
  rw [getKey_none_append o0 [(k, cur)] k h]
  simp [getKey]

theorem jsSet_append_last (o0 : List (String × α)) (k : String) (cur v : α)
    (h : getKey o0 k = none) : jsSet (o0 ++ [(k, cur)]) k v = o0 ++ [(k, v)] := by
  induction o0 with
  | nil => simp [jsSet]
  | cons hd tl ih =>
    obtain ⟨k', v'⟩ := hd
    by_cases hk : k' = k
    · simp [getKey, hk] at h
    · simp only [getKey, hk, if_false] at h
      simp [jsSet, hk, ih h]

/-- Step B2: once `obj[k]` holds a sub-object, further nested entries for
parent `k` assign into it in place. -/
theorem foldl_dstep_nested_grow (k : String) (entries : List ReqEntry)
    (hpar : ∀ e ∈ entries, e.parent = some k) :
    ∀ (o0 : List (String × Val)) (cur : List (String × Val)), getKey o0 k = none →
    List.foldl dstep (o0 ++ [(k, Val.obj cur)]) entries =
      o0 ++ [(k, Val.obj (entries.foldl
        (fun fs e => jsSet fs e.key (Val.vstr e.value)) cur))] := by
  induction entries with
  | nil => intro o0 cur _; simp
  | cons e rest ih =>
    intro o0 cur h0
    have hpe : e.parent = some k := hpar e (by simp)
    have hstep : dstep (o0 ++ [(k, Val.obj cur)]) e =
        o0 ++ [(k, Val.obj (jsSet cur e.key (Val.vstr e.value)))] := by
      simp only [dstep, hpe, getKey_append_last o0 k (Val.obj cur) h0, truthyVal]
      exact jsSet_append_last o0 k _ _ h0
    simp only [List.foldl_cons, hstep]
    rw [ih (fun e he => hpar e (by simp [he])) o0 _ h0]

/-- Step B1: a run of nested entries for a fresh parent `k` creates
`obj[k]` at the end of the object and fills it in entry order. -/
theorem foldl_dstep_nested_start (k : String) (e : ReqEntry) (rest : List ReqEntry)
    (hpar : ∀ x ∈ e :: rest, x.parent = some k) (o0 : List (String × Val))
    (h0 : getKey o0 k = none) :
    List.foldl dstep o0 (e :: rest) =
      o0 ++ [(k, Val.obj (rest.foldl
        (fun fs e => jsSet fs e.key (Val.vstr e.value)) [(e.key, Val.vstr e.value)]))] := by
  have hpe : e.parent = some k := hpar e (by simp)
  have hstep : dstep o0 e = o0 ++ [(k, Val.obj [(e.key, Val.vstr e.value)])] := by
    simp only [dstep, hpe, h0]
    exact jsSet_of_getKey_none o0 k _ h0
  simp only [List.foldl_cons, hstep]
  exact foldl_dstep_nested_grow k rest (fun x hx => hpar x (by simp [hx])) o0 _ h0

/-- `filterMap` of a "keep iff the stored string is nonempty" function is a
filter followed by a map (parameterised by the fixed enclosing `F`). -/
theorem filterMap_keep_eq (F : List (String × Val)) :
    ∀ l : List (String × Val),
    (l.filterMap fun ikv =>
        let s := innerValStr F ikv.2
        if s = "" then none else some (ikv.1, Val.vstr s)) =
      (l.filter fun ikv => innerValStr F ikv.2 ≠ "").map
        (fun ikv => (ikv.1, Val.vstr (innerValStr F ikv.2))) := by
  intro l
  induction l with
  | nil => rfl
  | cons hd tl ih =>
    by_cases h : innerValStr F hd.2 = "" <;>
      simp [List.filterMap_cons, List.filter_cons, h, ih]

theorem canonReqFields_eq (fields : List (String × Val)) :
    canonReqFields fields =
      (fields.filter fun ikv => innerValStr fields ikv.2 ≠ "").map
        (fun ikv => (ikv.1, Val.vstr (innerValStr fields ikv.2))) :=
  filterMap_keep_eq fields fields

/-- Folding the surviving entries of one flattened sub-object rebuilds
exactly its canonical fields. -/
theorem foldl_dstep_group_obj (k : String) (fields : List (String × Val))
    (hf : uniqKeys fields) (o0 : List (String × Val)) (h0 : getKey o0 k = none) :
    List.foldl dstep o0 ((serializeGroup k (Val.obj fields)).filter
        fun e => e.value ≠ "") =
      o0 ++ (canonGroup k (Val.obj fields)).toList := by
  simp only [serializeGroup, canonGroup]
  rw [List.filter_map]
  have hkept2 : fields.filter ((fun e => e.value ≠ "") ∘
      fun ikv => ReqEntry.mk ikv.1 (some k) (innerValStr fields ikv.2)) =
      fields.filter fun ikv => innerValStr fields ikv.2 ≠ "" := rfl
  rw [hkept2]
  set kept := fields.filter fun ikv => innerValStr fields ikv.2 ≠ "" with hkeptDef
  have hcanon : canonReqFields fields =
      kept.map fun ikv => (ikv.1, Val.vstr (innerValStr fields ikv.2)) :=
    canonReqFields_eq fields
  have hnodupKept : (kept.map Prod.fst).Nodup := by
    refine List.Nodup.sublist ?_ hf
    exact List.Sublist.map Prod.fst (List.filter_sublist fields)
  cases hk : kept with
  | nil =>
    rw [hk] at hcanon
    simp at hcanon
    simp [hk, hcanon]
  | cons ik0 ktl =>
    rw [hk] at hcanon hnodupKept
    simp only [List.map_cons, List.nodup_cons] at hnodupKept
    have hpar : ∀ x ∈ (ReqEntry.mk ik0.1 (some k) (innerValStr fields ik0.2)) ::
        (ktl.map fun ikv => ReqEntry.mk ikv.1 (some k) (innerValStr fields ikv.2)),
        x.parent = some k := by
      intro x hx
      rcases List.mem_cons.1 hx with h | h
      · subst h; rfl
      · simp only [List.mem_map] at h
        obtain ⟨p, _, rfl⟩ := h
        rfl
    rw [List.map_cons]
    rw [foldl_dstep_nested_start k _ _ hpar o0 h0]
    have hinner : (List.map (fun ikv =>
          ReqEntry.mk ikv.1 (some k) (innerValStr fields ikv.2)) ktl).foldl
        (fun fs e => jsSet fs e.key (Val.vstr e.value))
        [(ik0.1, Val.vstr (innerValStr fields ik0.2))] =
        (ik0.1, Val.vstr (innerValStr fields ik0.2)) ::
          (ktl.map fun ikv => (ikv.1, Val.vstr (innerValStr fields ikv.2))) := by
      rw [List.foldl_map]
      have h2 := foldl_jsSet_of_fresh
        (ktl.map fun ikv => (ikv.1, Val.vstr (innerValStr fields ikv.2)))
        [(ik0.1, Val.vstr (innerValStr fields ik0.2))] ?_ ?_
      · rw [List.foldl_map] at h2
        simpa using h2
      · intro p hp
        simp only [List.mem_map] at hp
        obtain ⟨q, hq, rfl⟩ := hp
        have hne : ik0.1 ≠ q.1 := by
          intro hEq
          exact hnodupKept.1 (hEq ▸ List.mem_map_of_mem Prod.fst hq)
        simp [getKey, hne]
      · simpa [List.map_map, Function.comp] using hnodupKept.2
    rw [hinner, hcanon]
    simp

/-- Folding one surviving (or dropped) scalar entry. -/
theorem foldl_dstep_scalar (k s : String) (o0 : List (String × Val))
    (h0 : getKey o0 k = none) :
    List.foldl dstep o0 ([ReqEntry.mk k none s].filter fun e => e.value ≠ "") =
      o0 ++ (if s = "" then [] else [(k, Val.vstr s)]) := by
  by_cases hs : s = ""
  · simp [hs, List.filter]
  · simp [List.filter, hs, dstep, jsSet_of_getKey_none o0 k _ h0]

theorem serializeRequest_cons (k : String) (v : Val) (rest : List (String × Val)) :
    serializeRequest ((k, v) :: rest) =
      ((serializeGroup k v).filter fun e => e.value ≠ "") ++ serializeRequest rest := by
  simp only [serializeRequest, List.flatMap_cons, List.filter_append]

theorem canonRequest_cons (k : String) (v : Val) (rest : List (String × Val)) :
    canonRequest ((k, v) :: rest) = (canonGroup k v).toList ++ canonRequest rest := by
  simp only [canonRequest, List.filterMap_cons]
  cases h : canonGroup k v <;> simp

theorem canonGroup_key (k : String) (v : Val) (p : String × Val)
    (h : canonGroup k v = some p) : p.1 = k := by
  cases v with
  | obj fields =>
    simp only [canonGroup] at h
    cases hfs : canonReqFields fields <;> rw [hfs] at h
    · exact absurd h (by simp)
    · cases h; rfl
  | vstr s =>
    simp only [canonGroup] at h
    by_cases hs : strOfVal (Val.vstr s) = "" <;> simp [hs] at h
    exact (congrArg Prod.fst h.symm : _)
  | vint n =>
    simp only [canonGroup] at h
    by_cases hs : strOfVal (Val.vint n) = "" <;> simp [hs] at h
    exact (congrArg Prod.fst h.symm : _)
  | vbool b =>
    simp only [canonGroup] at h
    by_cases hs : strOfVal (Val.vbool b) = "" <;> simp [hs] at h
    exact (congrArg Prod.fst h.symm : _)
  | vnull =>
    simp only [canonGroup] at h
    by_cases hs : strOfVal Val.vnull = "" <;> simp [hs] at h
    exact (congrArg Prod.fst h.symm : _)
  | arr es =>
    simp only [canonGroup] at h
    by_cases hs : strOfVal (Val.arr es) = "" <;> simp [hs] at h
    exact (congrArg Prod.fst h.symm : _)

theorem foldl_dstep_group (k : String) (v : Val)
    (hin : ∀ fields, v = Val.obj fields → uniqKeys fields)
    (o0 : List (String × Val)) (h0 : getKey o0 k = none) :
    List.foldl dstep o0 ((serializeGroup k v).filter fun e => e.value ≠ "") =
      o0 ++ (canonGroup k v).toList := by
  cases v with
  | obj fields => exact foldl_dstep_group_obj k fields (hin fields rfl) o0 h0
  | vstr s =>
    rw [show serializeGroup k (Val.vstr s) =
      [ReqEntry.mk k none (strOfVal (Val.vstr s))] from rfl]
    rw [foldl_dstep_scalar k _ o0 h0]
    by_cases hs : strOfVal (Val.vstr s) = "" <;> simp [canonGroup, hs]
  | vint n =>
    rw [show serializeGroup k (Val.vint n) =
      [ReqEntry.mk k none (strOfVal (Val.vint n))] from rfl]
    rw [foldl_dstep_scalar k _ o0 h0]
    by_cases hs : strOfVal (Val.vint n) = "" <;> simp [canonGroup, hs]
  | vbool b =>
    rw [show serializeGroup k (Val.vbool b) =
      [ReqEntry.mk k none (strOfVal (Val.vbool b))] from rfl]
    rw [foldl_dstep_scalar k _ o0 h0]
    by_cases hs : strOfVal (Val.vbool b) = "" <;> simp [canonGroup, hs]
  | vnull =>
    rw [show serializeGroup k Val.vnull =
      [ReqEntry.mk k none (strOfVal Val.vnull)] from rfl]
    rw [foldl_dstep_scalar k _ o0 h0]
    by_cases hs : strOfVal Val.vnull = "" <;> simp [canonGroup, hs]
  | arr es =>
    rw [show serializeGroup k (Val.arr es) =
      [ReqEntry.mk k none (strOfVal (Val.arr es))] from rfl]
    rw [foldl_dstep_scalar k _ o0 h0]
    by_cases hs : strOfVal (Val.arr es) = "" <;> simp [canonGroup, hs]

theorem foldl_dstep_serializeRequest (req : List (String × Val)) :
    ∀ o0 : List (String × Val),
    uniqKeys req →
    (∀ kv ∈ req, ∀ fields, kv.2 = Val.obj fields → uniqKeys fields) →
    (∀ kv ∈ req, getKey o0 kv.1 = none) →
    List.foldl dstep o0 (serializeRequest req) = o0 ++ canonRequest req := by
  induction req with
  | nil =>
    intro o0 _ _ _
    simp [serializeRequest, canonRequest]
  | cons hd rest ih =>
    intro o0 hu hin hfresh
    obtain ⟨k, v⟩ := hd
    rw [serializeRequest_cons, canonRequest_cons, List.foldl_append]
    have h0 : getKey o0 k = none := hfresh (k, v) (by simp)
    rw [foldl_dstep_group k v (fun fields hf => hin (k, v) (by simp) fields hf) o0 h0]
    simp only [uniqKeys, List.map_cons, List.nodup_cons] at hu
    rw [ih (o0 ++ (canonGroup k v).toList) hu.2
      (fun kv hkv fields hf => hin kv (by simp [hkv]) fields hf) ?_]
    · simp
    · intro kv hkv
      rw [getKey_none_append o0 _ kv.1 (hfresh kv (by simp [hkv]))]
      cases hcg : canonGroup k v with
      | none => simp [getKey]
      | some p =>
        have hp := canonGroup_key k v p hcg
        have hne : p.1 ≠ kv.1 := by
          rw [hp]
          intro hEq
          exact hu.1 (hEq ▸ List.mem_map_of_mem Prod.fst hkv)
        simp [getKey, hne]

/-- The request round trip on duplicate-free input: read-back rebuilds the
canonical request. -/
theorem deserializeRequest_serializeRequest (req : List (String × Val))
    (hu : uniqKeys req)
    (hin : ∀ kv ∈ req, ∀ fields, kv.2 = Val.obj fields → uniqKeys fields) :
    deserializeRequest (serializeRequest req) = canonRequest req := by
  have := foldl_dstep_serializeRequest req [] hu hin (by intro kv _; rfl)
  simpa [deserializeRequest] using this

theorem serializeBeforeAfter_vstr (v : Option Val) :
    (serializeBeforeAfter v).map Val.vstr = canonBeforeAfter v := by
  cases v with
  | none => rfl
  | some v =>
    by_cases hv : truthyVal v = true <;>
      simp [serializeBeforeAfter, canonBeforeAfter, hv]

/-- The full codec round trip: on a well-formed action one write/read cycle
produces exactly the canonical normal form. -/
theorem deserialize_serialize (a : Action) (h : WFAction a) :
    deserialize (serialize a) = canonAction a := by
  obtain ⟨hag, htg, hreq, hresp, hch, hcost, hmeta⟩ := h
  have hAgents : ∀ (l : List AgentA), (∀ ag ∈ l, WFAgent ag) →
      (l.map serializeAgent).map deserializeAgent = l.map canonAgent := by
    intro l hl
    rw [List.map_map]
    refine List.map_congr_left fun ag hm => ?_
    simp [Function.comp, deserializeAgent, serializeAgent, canonAgent,
      arrToValObj_transform ag.meta (hl ag hm)]
  simp only [deserialize, serialize, canonAction, Action.mk.injEq, true_and,
    and_true, eq_self_iff_true]
  refine ⟨hAgents a.agents hag, ?_, ?_, ?_, ?_, ?_, ?_⟩
  · -- targets
    cases ht : a.targets with
    | none => rfl
    | some ts =>
      simp only [Option.map_some', Option.some.injEq]
      exact hAgents ts (htg ts ht)
  · -- request
    cases hr : a.request with
    | none => rfl
    | some req =>
      simp only [Option.map_some', Option.some.injEq]
      obtain ⟨hu, hin⟩ := hreq req hr
      refine deserializeRequest_serializeRequest req hu fun kv hkv fields hf => ?_
      have := hin kv hkv
      rw [hf] at this
      exact this
  · -- response
    cases hr : a.response with
    | none => rfl
    | some r =>
      simp [Option.map_some', ResponseA.mk.injEq,
        arrToValObj_transform r.body (hresp r hr).1,
        arrToValObj_transform r.headers (hresp r hr).2]
  · -- changes
    cases hc : a.changes with
    | none => rfl
    | some cs =>
      simp only [Option.map_some', Option.some.injEq]
      rw [List.map_map]
      refine List.map_congr_left fun c hm => ?_
      simp [Function.comp, deserializeChange, serializeChange, canonChange,
        serializeBeforeAfter_vstr, arrToValObj_transform c.meta (hch cs hc c hm)]
  · -- cost
    cases hc : a.cost with
    | none => rfl
    | some c =>
      simp [Option.map_some', CostA.mk.injEq, arrToValObj_transform c.meta (hcost c hc)]
  · -- meta
    exact arrToValObj_transform a.meta hmeta

/-! ### Idempotence of the canonical form, and well-formedness preservation -/

theorem strOfVal_vstr (s : String) : strOfVal (Val.vstr s) = s := rfl

theorem strOfVal_ne_empty_of_truthy (v : Val) (h : truthyVal v = true) :
    strOfVal v ≠ "" := by
  cases v with
  | vstr s => simpa [truthyVal] using h
  | vint n => exact jsonStr_ne_empty _
  | vbool b => exact jsonStr_ne_empty _
  | vnull => exact jsonStr_ne_empty _
  | obj fields => exact jsonStr_ne_empty _
  | arr es => exact jsonStr_ne_empty _

theorem canonMap_idem (m : List (String × Val)) : canonMap (canonMap m) = canonMap m := by
  simp [canonMap, List.map_map, Function.comp, strOfVal]

theorem canonMap_keys (m : List (String × Val)) :
    (canonMap m).map Prod.fst = m.map Prod.fst := by
  simp [canonMap, List.map_map, Function.comp]

theorem canonBeforeAfter_idem (v : Option Val) :
    canonBeforeAfter (canonBeforeAfter v) = canonBeforeAfter v := by
  cases v with
  | none => rfl
  | some v =>
    by_cases hv : truthyVal v = true
    · have hs := strOfVal_ne_empty_of_truthy v hv
      have h1 : canonBeforeAfter (some v) = some (Val.vstr (strOfVal v)) := by
        simp [canonBeforeAfter, hv]
      rw [h1]
      have ht2 : truthyVal (Val.vstr (strOfVal v)) = true := by
        simp [truthyVal, hs]
      simp [canonBeforeAfter, ht2, strOfVal_vstr]
    · simp [canonBeforeAfter, hv]

theorem canonReqFields_strings (fields : List (String × Val)) :
    ∀ p ∈ canonReqFields fields, ∃ s, p.2 = Val.vstr s ∧ s ≠ "" := by
  intro p hp
  rw [canonReqFields_eq] at hp
  simp only [List.mem_map, List.mem_filter] at hp
  obtain ⟨q, ⟨_, hq⟩, rfl⟩ := hp
  exact ⟨innerValStr fields q.2, rfl, by simpa using hq⟩

theorem canonReqFields_of_strings (fs : List (String × Val))
    (h : ∀ p ∈ fs, ∃ s, p.2 = Val.vstr s ∧ s ≠ "") :
    canonReqFields fs = fs := by
  rw [canonReqFields_eq]
  have hfilter : fs.filter (fun ikv => innerValStr fs ikv.2 ≠ "") = fs := by
    rw [List.filter_eq_self]
    intro p hp
    obtain ⟨s, hs, hne⟩ := h p hp
    simp [hs, innerValStr, hne]
  rw [hfilter]
  have : ∀ p ∈ fs, (p.1, Val.vstr (innerValStr fs p.2)) = p := by
    intro p hp
    obtain ⟨s, hs, _⟩ := h p hp
    obtain ⟨p1, p2⟩ := p
    simp only at hs
    subst hs
    rfl
  calc fs.map (fun ikv => (ikv.1, Val.vstr (innerValStr fs ikv.2)))
      = fs.map id := List.map_congr_left this
    _ = fs := List.map_id fs

theorem canonReqFields_keys_sublist (fields : List (String × Val)) :
    ((canonReqFields fields).map Prod.fst).Sublist (fields.map Prod.fst) := by
  rw [canonReqFields_eq, List.map_map]
  have : (Prod.fst ∘ fun ikv : String × Val => (ikv.1, Val.vstr (innerValStr fields ikv.2)))
      = Prod.fst := rfl
  rw [this]
  exact List.Sublist.map Prod.fst (List.filter_sublist fields)

theorem canonGroup_self (k : String) (v : Val) (p : String × Val)
    (h : canonGroup k v = some p) : canonGroup p.1 p.2 = some p := by
  cases v with
  | obj fields =>
    simp only [canonGroup] at h
    cases hfs : canonReqFields fields with
    | nil => rw [hfs] at h; exact absurd h (by simp)
    | cons f0 ftl =>
      rw [hfs] at h
      cases h
      have hnil : canonReqFields (f0 :: ftl) = f0 :: ftl := by
        refine canonReqFields_of_strings _ fun q hq => ?_
        exact canonReqFields_strings fields q (hfs ▸ hq)
      simp [canonGroup, hnil]
  | vstr s =>
    simp only [canonGroup] at h
    by_cases hs : strOfVal (Val.vstr s) = "" <;> simp [hs] at h
    cases h
    simp [canonGroup, strOfVal] at hs ⊢
    simp [hs]
  | vint n =>
    simp only [canonGroup] at h
    by_cases hs : strOfVal (Val.vint n) = "" <;> simp [hs] at h
    cases h
    have : strOfVal (Val.vint n) ≠ "" := hs
    simp [canonGroup, strOfVal] at this ⊢
    simp [this]
  | vbool b =>
    simp only [canonGroup] at h
    by_cases hs : strOfVal (Val.vbool b) = "" <;> simp [hs] at h
    cases h
    have : strOfVal (Val.vbool b) ≠ "" := hs
    simp [canonGroup, strOfVal] at this ⊢
    simp [this]
  | vnull =>
    simp only [canonGroup] at h
    by_cases hs : strOfVal Val.vnull = "" <;> simp [hs] at h
    cases h
    have : strOfVal Val.vnull ≠ "" := hs
    simp [canonGroup, strOfVal] at this ⊢
    simp [this]
  | arr es =>
    simp only [canonGroup] at h
    by_cases hs : strOfVal (Val.arr es) = "" <;> simp [hs] at h
    cases h
    have : strOfVal (Val.arr es) ≠ "" := hs
    simp [canonGroup, strOfVal] at this ⊢
    simp [this]

theorem filterMap_some_id (f : α → Option α) (l : List α)
    (h : ∀ p ∈ l, f p = some p) : l.filterMap f = l := by
  induction l with
  | nil => rfl
  | cons hd tl ih =>
    rw [List.filterMap_cons, h hd (by simp), ih fun p hp => h p (by simp [hp])]

theorem canonRequest_idem (req : List (String × Val)) :
    canonRequest (canonRequest req) = canonRequest req := by
  refine filterMap_some_id _ _ fun p hp => ?_
  simp only [canonRequest, List.mem_filterMap] at hp
  obtain ⟨kv, _, hkv⟩ := hp
  exact canonGroup_self kv.1 kv.2 p hkv

theorem canonAgent_idem (ag : AgentA) : canonAgent (canonAgent ag) = canonAgent ag := by
  cases hm : ag.meta <;> simp [canonAgent, hm, canonMap_idem]

theorem canonChange_idem (c : ChangeA) : canonChange (canonChange c) = canonChange c := by
  cases hm : c.meta <;>
    simp [canonChange, hm, canonMap_idem, canonBeforeAfter_idem]

theorem canonAction_idem (a : Action) : canonAction (canonAction a) = canonAction a := by
  simp only [canonAction, Action.mk.injEq, true_and, and_true, eq_self_iff_true]
  refine ⟨?_, ?_, ?_, ?_, ?_, ?_, ?_⟩
  · rw [List.map_map]
    exact List.map_congr_left fun ag _ => canonAgent_idem ag
  · cases a.targets with
    | none => rfl
    | some ts =>
      simp only [Option.map_some', Option.some.injEq]
      rw [List.map_map]
      exact List.map_congr_left fun ag _ => canonAgent_idem ag
  · cases a.request with
    | none => rfl
    | some req => simp [canonRequest_idem]
  · cases a.response with
    | none => rfl
    | some r =>
      have hcc : canonMap ∘ canonMap = canonMap := funext canonMap_idem
      simp [canonMap_idem, hcc]
  · cases a.changes with
    | none => rfl
    | some cs =>
      simp only [Option.map_some', Option.some.injEq]
      rw [List.map_map]
      exact List.map_congr_left fun c _ => canonChange_idem c
  · cases a.cost with
    | none => rfl
    | some c =>
      have hcc : canonMap ∘ canonMap = canonMap := funext canonMap_idem
      simp [canonMap_idem, hcc]
  · cases a.meta with
    | none => rfl
    | some m => simp [canonMap_idem]

theorem optUniq_canonMap (o : Option (List (String × Val))) (h : optUniq o) :
    optUniq (o.map canonMap) := by
  intro m hm
  cases o with
  | none => simp at hm
  | some m0 =>
    simp only [Option.map_some', Option.some.injEq] at hm
    subst hm
    unfold uniqKeys
    rw [canonMap_keys]
    exact h m0 rfl

theorem canonRequest_keys_sublist (req : List (String × Val)) :
    ((canonRequest req).map Prod.fst).Sublist (req.map Prod.fst) := by
  induction req with
  | nil => simp [canonRequest]
  | cons hd tl ih =>
    obtain ⟨k, v⟩ := hd
    rw [canonRequest_cons]
    cases hcg : canonGroup k v with
    | none =>
      simp only [Option.toList_none, List.nil_append, List.map_cons]
      exact ih.cons _
    | some p =>
      have hp := canonGroup_key k v p hcg
      simp only [Option.toList_some, List.singleton_append, List.map_cons, hp]
      exact ih.cons₂ _

theorem WFAction_canon (a : Action) (h : WFAction a) : WFAction (canonAction a) := by
  obtain ⟨hag, htg, hreq, hresp, hch, hcost, hmeta⟩ := h
  refine ⟨?_, ?_, ?_, ?_, ?_, ?_, ?_⟩
  · intro ag hm
    simp only [canonAction, List.mem_map] at hm
    obtain ⟨ag0, hag0, rfl⟩ := hm
    exact optUniq_canonMap ag0.meta (hag ag0 hag0)
  · intro ts hts ag hm
    simp only [canonAction] at hts
    cases ht : a.targets with
    | none => rw [ht] at hts; simp at hts
    | some ts0 =>
      rw [ht] at hts
      simp only [Option.map_some', Option.some.injEq] at hts
      subst hts
      simp only [List.mem_map] at hm
      obtain ⟨ag0, hag0, rfl⟩ := hm
      exact optUniq_canonMap ag0.meta (htg ts0 ht ag0 hag0)
  · intro req hr
    simp only [canonAction] at hr
    cases hr0 : a.request with
    | none => rw [hr0] at hr; simp at hr
    | some req0 =>
      rw [hr0] at hr
      simp only [Option.map_some', Option.some.injEq] at hr
      subst hr
      obtain ⟨hu0, hin0⟩ := hreq req0 hr0
      constructor
      · exact List.Nodup.sublist (canonRequest_keys_sublist req0) hu0
      · intro kv hkv
        simp only [canonRequest, List.mem_filterMap] at hkv
        obtain ⟨kv0, hkv0, hcg⟩ := hkv
        cases v0 : kv0.2 with
        | obj fields =>
          rw [v0] at hcg
          simp only [canonGroup] at hcg
          cases hfs : canonReqFields fields with
          | nil => rw [hfs] at hcg; exact absurd hcg (by simp)
          | cons f0 ftl =>
            rw [hfs] at hcg
            cases hcg
            have huf : uniqKeys fields := by
              have := hin0 kv0 hkv0
              rw [v0] at this
              exact this
            have : uniqKeys (canonReqFields fields) :=
              List.Nodup.sublist (canonReqFields_keys_sublist fields) huf
            rw [hfs] at this
            exact this
        | vstr s =>
          rw [v0] at hcg
          simp only [canonGroup] at hcg
          by_cases hs : strOfVal (Val.vstr s) = "" <;> simp [hs] at hcg
          cases hcg; trivial
        | vint n =>
          rw [v0] at hcg
          simp only [canonGroup] at hcg
          by_cases hs : strOfVal (Val.vint n) = "" <;> simp [hs] at hcg
          cases hcg; trivial
        | vbool b =>
          rw [v0] at hcg
          simp only [canonGroup] at hcg
          by_cases hs : strOfVal (Val.vbool b) = "" <;> simp [hs] at hcg
          cases hcg; trivial
        | vnull =>
          rw [v0] at hcg
          simp only [canonGroup] at hcg
          by_cases hs : strOfVal Val.vnull = "" <;> simp [hs] at hcg
          cases hcg; trivial
        | arr es =>
          rw [v0] at hcg
          simp only [canonGroup] at hcg
          by_cases hs : strOfVal (Val.arr es) = "" <;> simp [hs] at hcg
          cases hcg; trivial
  · intro r hr
    simp only [canonAction] at hr
    cases hr0 : a.response with
    | none => rw [hr0] at hr; simp at hr
    | some r0 =>
      rw [hr0] at hr
      simp only [Option.map_some', Option.some.injEq] at hr
      subst hr
      exact ⟨optUniq_canonMap r0.body (hresp r0 hr0).1,
        optUniq_canonMap r0.headers (hresp r0 hr0).2⟩
  · intro cs hcs c hm
    simp only [canonAction] at hcs
    cases hc0 : a.changes with
    | none => rw [hc0] at hcs; simp at hcs
    | some cs0 =>
      rw [hc0] at hcs
      simp only [Option.map_some', Option.some.injEq] at hcs
      subst hcs
      simp only [List.mem_map] at hm
      obtain ⟨c0, hc0m, rfl⟩ := hm
      exact optUniq_canonMap c0.meta (hch cs0 hc0 c0 hc0m)
  · intro c hc
    simp only [canonAction] at hc
    cases hc0 : a.cost with
    | none => rw [hc0] at hc; simp at hc
    | some c0 =>
      rw [hc0] at hc
      simp only [Option.map_some', Option.some.injEq] at hc
      subst hc
      exact optUniq_canonMap c0.meta (hcost c0 hc0)
  · exact optUniq_canonMap a.meta hmeta

/-! ### The filter compiler (`OpenSearchEngine.buildFindManyQuery`,
`src/engine.ts` lines 713–1403)

Query clauses are modelled by the `Clause` AST; filters by
`FindActionFilters` (the recognized keys of `@acro-sdk/common-store`'s
filter type).  A JS "string or array of strings" is `StrOrList`, a
"candidate object or array of candidate objects" is `OneOrMany`. -/

inductive Clause where
  | term (field : String) (value : String)
  | termsQ (field : String) (values : List String)
  | range (field : String) (gte : Option String) (lt : Option String)
  | rangeN (field : String) (gte : Option Int) (lt : Option Int)
  | nested (path : String) (query : Clause)
  | boolMust (clauses : List Clause)
  | boolShould (clauses : List Clause)

inductive StrOrList where
  | one (s : String)
  | many (xs : List String)

inductive OneOrMany (α : Type) where
  | one (a : α)
  | many (xs : List α)

/-- `Array.isArray(x) ? x : [x]`. -/
def OneOrMany.asList : OneOrMany α → List α
  | .one a => [a]
  | .many xs => xs

def StrOrList.asList : StrOrList → List String
  | .one s => [s]
  | .many xs => xs

/-- JS truthiness of an optional string-or-array filter value: a missing
value and the empty string are falsy, an array (even empty) is truthy. -/
def truthySOL : Option StrOrList → Bool
  | none => false
  | some (.one s) => s ≠ ""
  | some (.many _) => true

/-- JS truthiness of an optional string field. -/
def truthyStr : Option String → Bool
  | none => false
  | some s => s ≠ ""

/-- JS truthiness of an optional number field (`0` is falsy). -/
def truthyNum : Option Int → Bool
  | none => false
  | some n => n ≠ 0

structure FrameworkFilter where
  name : Option String
  version : Option String

structure ActionFilter where
  id : Option String
  type : Option String
  verb : Option String
  object : Option String

structure AgentFilter where
  id : Option String
  type : Option String
  name : Option String
  meta : Option (List (String × String))

structure ChangeFilter where
  model : Option String
  operation : Option String
  id : Option String
  path : Option String
  before : Option String
  after : Option String
  meta : Option (List (String × String))

/-- A request filter value: a scalar, or one level of nested object. -/
inductive ReqFilterVal where
  | s (v : String)
  | obj (m : List (String × String))

structure TimeFilter where
  gte : Option Int
  lt : Option Int

structure ResponseFilter where
  status : Option StrOrList
  time : Option TimeFilter
  body : Option (OneOrMany (List (String × String)))
  headers : Option (OneOrMany (List (String × String)))

structure FindActionFilters where
  companyId : String
  start : Option String := none
  stop : Option String := none   -- the source's `filters.end` (`end` is reserved in Lean)
  id : Option StrOrList := none
  clientId : Option StrOrList := none
  app : Option StrOrList := none
  environment : Option StrOrList := none
  sessionId : Option StrOrList := none
  traceIds : Option StrOrList := none
  framework : Option (OneOrMany FrameworkFilter) := none
  action : Option (OneOrMany ActionFilter) := none
  agents : Option (OneOrMany AgentFilter) := none
  targets : Option (OneOrMany AgentFilter) := none
  request : Option (OneOrMany (List (String × ReqFilterVal))) := none
  response : Option ResponseFilter := none
  changes : Option (OneOrMany ChangeFilter) := none
  meta : Option (OneOrMany (List (String × String))) := none
  query : Option String := none

/-- The ubiquitous collapse step `xs.length === 1 ? xs[0] : wrap xs`
(guarded by `xs.length`): nothing for an empty group, the bare clause for a
singleton, the wrapped group otherwise. -/
def collapse1 (wrap : List Clause → Clause) (xs : List Clause) : List Clause :=
  match xs with
  | [] => []
  | [x] => [x]
  | xs => [wrap xs]

/-- The collapse step used inside a `nested` wrapper, where the group is
known non-empty: the bare clause for a singleton, the wrapped group
otherwise. -/
def collapseNE (wrap : List Clause → Clause) (xs : List Clause) : Clause :=
  match xs with
  | [x] => x
  | xs => wrap xs

/-- `if (x?.[key]) push term(field, x[key])`. -/
def optTerm (field : String) (v : Option String) : List Clause :=
  match v with
  | some s => if s = "" then [] else [Clause.term field s]
  | none => []

/-- Base clauses: `term(companyId)` and the timestamp range with the
`now − defaultStartMonthsAgo … now` defaults.  A `start`/`end` string that
does not parse yields a `null` bound (`none`), as `DateTime.fromISO(bad)
.toISO()` does. -/
def baseClauses (defaultStartMonthsAgo : Nat) (now : DT)
    (filters : FindActionFilters) : List Clause :=
  [Clause.term "companyId" filters.companyId,
   Clause.range "timestamp"
     (match filters.start with
      | some s =>
        if s = "" then some (toISO (minusMonths now defaultStartMonthsAgo))
        else (fromISO s).map toISO
      | none => some (toISO (minusMonths now defaultStartMonthsAgo)))
     (match filters.stop with
      | some s => if s = "" then some (toISO now) else (fromISO s).map toISO
      | none => some (toISO now))]

/-- The `["id", "clientId", "app", "environment", "sessionId", "traceIds"]`
loop: each truthy filter becomes a `terms` clause over the array form. -/
def scalarClauses (filters : FindActionFilters) : List Clause :=
  (if truthySOL filters.id then
    [Clause.termsQ "id" ((filters.id.getD (.many [])).asList)] else []) ++
  (if truthySOL filters.clientId then
    [Clause.termsQ "clientId" ((filters.clientId.getD (.many [])).asList)] else []) ++
  (if truthySOL filters.app then
    [Clause.termsQ "app" ((filters.app.getD (.many [])).asList)] else []) ++
  (if truthySOL filters.environment then
    [Clause.termsQ "environment" ((filters.environment.getD (.many [])).asList)] else []) ++
  (if truthySOL filters.sessionId then
    [Clause.termsQ "sessionId" ((filters.sessionId.getD (.many [])).asList)] else []) ++
  (if truthySOL filters.traceIds then
    [Clause.termsQ "traceIds" ((filters.traceIds.getD (.many [])).asList)] else [])

def frameworkMust (f : FrameworkFilter) : List Clause :=
  optTerm "framework.name" f.name ++ optTerm "framework.version" f.version

def frameworkClauses (filters : FindActionFilters) : List Clause :=
  match filters.framework with
  | none => []
  | some fw =>
    collapse1 Clause.boolShould (fw.asList.flatMap fun f =>
      collapse1 Clause.boolMust (frameworkMust f))

def actionMust (a : ActionFilter) : List Clause :=
  optTerm "action.id" a.id ++ optTerm "action.type" a.type ++
  optTerm "action.verb" a.verb ++ optTerm "action.object.keyword" a.object

def actionClauses (filters : FindActionFilters) : List Clause :=
  match filters.action with
  | none => []
  | some ac =>
    collapse1 Clause.boolShould (ac.asList.flatMap fun a =>
      collapse1 Clause.boolMust (actionMust a))

/-- The term pairs of a metadata sub-filter: one `key` term and one
`value.keyword` term per key, all in a single shared list. -/
def metaPairs (path : String) (m : List (String × String)) : List Clause :=
  m.flatMap fun kv =>
    [Clause.term (path ++ ".key") kv.1, Clause.term (path ++ ".value.keyword") kv.2]

/-- The single nested metadata clause of an agents/targets/changes
candidate: ALL the candidate's meta key/value term pairs share one
`nested(path, bool.must [...])` clause. -/
def entityMetaClause (path : String) (meta : Option (List (String × String))) :
    List Clause :=
  match meta with
  | none => []
  | some m =>
    if m.isEmpty then []
    else [Clause.nested path (collapseNE Clause.boolMust (metaPairs path m))]

def agentMust (path : String) (a : AgentFilter) : List Clause :=
  optTerm (path ++ ".id") a.id ++ optTerm (path ++ ".type") a.type ++
  optTerm (path ++ ".name") a.name ++ entityMetaClause (path ++ ".meta") a.meta

/-- Shared shape of the `agents` and `targets` sections: OR the candidates,
wrap in `nested(path, …)` when anything survives. -/
def entityClauses (path : String) (ent : Option (OneOrMany AgentFilter)) : List Clause :=
  match ent with
  | none => []
  | some ag =>
    match ag.asList.flatMap fun a => collapse1 Clause.boolMust (agentMust path a) with
    | [] => []
    | xs => [Clause.nested path (collapseNE Clause.boolShould xs)]

/-- One request filter key compiled to nested clauses: an object value
produces one clause per inner key (with the `parent` term), a scalar one
clause. -/
def requestMustOfKey (k : String) (v : ReqFilterVal) : List Clause :=
  match v with
  | .obj m =>
    m.map fun ikv =>
      Clause.nested "request" (Clause.boolMust
        [Clause.term "request.key" ikv.1,
         Clause.term "request.parent" k,
         Clause.term "request.value.keyword" ikv.2])
  | .s sv =>
    [Clause.nested "request" (Clause.boolMust
      [Clause.term "request.key" k,
       Clause.term "request.value.keyword" sv])]

def requestClauses (filters : FindActionFilters) : List Clause :=
  match filters.request with
  | none => []
  | some rq =>
    collapse1 Clause.boolShould (rq.asList.flatMap fun r =>
      collapse1 Clause.boolMust (r.flatMap fun kv => requestMustOfKey kv.1 kv.2))

/-- `response.body` / `response.headers`: all pairs of one map share one
nested clause; maps are OR'd. -/
def responseMapClauses (path : String)
    (maps : Option (OneOrMany (List (String × String)))) : List Clause :=
  match maps with
  | none => []
  | some ms =>
    collapse1 Clause.boolShould (ms.asList.flatMap fun m =>
      match metaPairs path m with
      | [] => []
      | ps => [Clause.nested path (collapseNE Clause.boolMust ps)])

def responseClauses (filters : FindActionFilters) : List Clause :=
  match filters.response with
  | none => []
  | some r =>
    collapse1 Clause.boolMust (
      (match r.status with
       | none => []
       | some (.one s) => if s = "" then [] else [Clause.term "response.status" s]
       | some (.many xs) => [Clause.termsQ "response.status" xs]) ++
      (match r.time with
       | none => []
       | some t =>
         if truthyNum t.gte || truthyNum t.lt then
           [Clause.rangeN "response.time"
             (if truthyNum t.gte then t.gte else none)
             (if truthyNum t.lt then t.lt else none)]
         else []) ++
      responseMapClauses "response.body" r.body ++
      responseMapClauses "response.headers" r.headers)

def changeMust (c : ChangeFilter) : List Clause :=
  optTerm "changes.model" c.model ++ optTerm "changes.operation" c.operation ++
  optTerm "changes.id" c.id ++ optTerm "changes.path.keyword" c.path ++
  optTerm "changes.before.keyword" c.before ++ optTerm "changes.after.keyword" c.after ++
  entityMetaClause "changes.meta" c.meta

def changesClauses (filters : FindActionFilters) : List Clause :=
  match filters.changes with
  | none => []
  | some ch =>
    match ch.asList.flatMap fun c => collapse1 Clause.boolMust (changeMust c) with
    | [] => []
    | xs => [Clause.nested "changes" (collapseNE Clause.boolShould xs)]

/-- One independent `nested("meta", …)` clause per key of a top-level meta
map (unlike the entity meta sub-filters). -/
def metaMust (m : List (String × String)) : List Clause :=
  m.map fun kv =>
    Clause.nested "meta" (Clause.boolMust
      [Clause.term "meta.key" kv.1, Clause.term "meta.value.keyword" kv.2])

def metaClauses (filters : FindActionFilters) : List Clause :=
  match filters.meta with
  | none => []
  | some ms =>
    collapse1 Clause.boolShould (ms.asList.flatMap fun m =>
      collapse1 Clause.boolMust (metaMust m))

/-- `buildFindManyQuery` (`src/engine.ts` lines 713–1403): the ordered
clause list.  `now` stands for the `DateTime.fromObject(\x7b\x7d,
\x7b zone: "utc" \x7d)` instant of the call.  The free-text `query` filter
key is NOT read anywhere in the source despite being part of the filter
interface and of the repository's test expectations. -/
def buildFindManyQuery (defaultStartMonthsAgo : Nat) (now : DT)
    (filters : FindActionFilters) : List Clause :=
  baseClauses defaultStartMonthsAgo now filters ++
  scalarClauses filters ++
  frameworkClauses filters ++
  actionClauses filters ++
  entityClauses "agents" filters.agents ++
  entityClauses "targets" filters.targets ++
  requestClauses filters ++
  responseClauses filters ++
  changesClauses filters ++
  metaClauses filters

/-! ### `OpenSearchActionSchema` (`src/action.ts`) over dynamic values

`zod`'s `.parse` throws on the first mismatch and otherwise strips unknown
keys; only success/failure matters to the engine, modelled by a boolean
validator over `Val`.  Optional fields accept absence but reject any
present non-conforming value (including `null`). -/

def getField (v : Val) (k : String) : Option Val :=
  match v with
  | .obj fields => getKey fields k
  | _ => none

def isStrV : Val → Bool
  | .vstr _ => true
  | _ => false

def isNumV : Val → Bool
  | .vint _ => true
  | _ => false

/-- An optional schema field: absent or conforming. -/
def optF (fields : List (String × Val)) (k : String) (p : Val → Bool) : Bool :=
  match getKey fields k with
  | none => true
  | some v => p v

/-- A required schema field. -/
def reqF (fields : List (String × Val)) (k : String) (p : Val → Bool) : Bool :=
  match getKey fields k with
  | some v => p v
  | none => false

def isArrOf (p : Val → Bool) : Val → Bool
  | .arr es => es.all p
  | _ => false

/-- `z.object(\x7b key: z.string(), value: z.string() \x7d)`. -/
def kvOk : Val → Bool
  | .obj fs => reqF fs "key" isStrV && reqF fs "value" isStrV
  | _ => false

def agentOk : Val → Bool
  | .obj fs =>
    optF fs "id" isStrV && reqF fs "type" isStrV && optF fs "name" isStrV &&
    optF fs "meta" (isArrOf kvOk)
  | _ => false

def reqEntryOk : Val → Bool
  | .obj fs =>
    reqF fs "key" isStrV && optF fs "parent" isStrV && reqF fs "value" isStrV
  | _ => false

def changeOk : Val → Bool
  | .obj fs =>
    reqF fs "model" isStrV && reqF fs "operation" isStrV && optF fs "id" isStrV &&
    optF fs "path" isStrV && optF fs "before" isStrV && optF fs "after" isStrV &&
    optF fs "meta" (isArrOf kvOk)
  | _ => false

def componentOk : Val → Bool
  | .obj fs => optF fs "type" isStrV && reqF fs "key" isStrV && reqF fs "amount" isNumV
  | _ => false

def costOk : Val → Bool
  | .obj fs =>
    reqF fs "amount" isNumV && reqF fs "currency" isStrV &&
    optF fs "components" (isArrOf componentOk) && optF fs "meta" (isArrOf kvOk)
  | _ => false

def responseOk : Val → Bool
  | .obj fs =>
    optF fs "status" isStrV && optF fs "time" isNumV &&
    optF fs "body" (isArrOf kvOk) && optF fs "headers" (isArrOf kvOk)
  | _ => false

def frameworkOk : Val → Bool
  | .obj fs => optF fs "name" isStrV && optF fs "version" isStrV
  | _ => false

def actionFieldOk : Val → Bool
  | .obj fs =>
    optF fs "id" isStrV && reqF fs "type" isStrV && reqF fs "verb" isStrV &&
    optF fs "object" isStrV
  | _ => false

/-- `OpenSearchActionSchema.parse(action)` succeeds. -/
def validateOSAction : Val → Bool
  | .obj fs =>
    optF fs "id" isStrV && reqF fs "timestamp" isStrV && optF fs "companyId" isStrV &&
    optF fs "clientId" isStrV && optF fs "app" isStrV && optF fs "environment" isStrV &&
    optF fs "framework" frameworkOk && optF fs "sessionId" isStrV &&
    optF fs "traceIds" (isArrOf isStrV) &&
    reqF fs "action" actionFieldOk &&
    reqF fs "agents" (isArrOf agentOk) &&
    optF fs "targets" (isArrOf agentOk) &&
    optF fs "request" (isArrOf reqEntryOk) &&
    optF fs "response" responseOk &&
    optF fs "changes" (isArrOf changeOk) &&
    optF fs "cost" costOk &&
    optF fs "meta" (isArrOf kvOk)
  | _ => false

/-! ### `create` / `createMany` (`src/engine.ts` lines 269–358) -/

def getFieldStr (v : Val) (k : String) : Option String :=
  match getField v k with
  | some (.vstr s) => some s
  | _ => none

/-- `getIndexName` applied to a dynamic action value. -/
def getIndexNameV (pattern : String) (a : Val) : String :=
  getIndexName pattern (getFieldStr a "companyId") ((getFieldStr a "timestamp").getD "")

/-- `action.id || id` — the document id: the action's own id when it is a
truthy (non-empty) string, else the freshly generated one.  (After schema
validation an `id` field can only be a string or absent.) -/
def theId (genId : String) (a : Val) : String :=
  match getField a "id" with
  | some (.vstr s) => if s = "" then genId else s
  | _ => genId

/-- `\x7b ...action, id: action.id || id \x7d`. -/
def withId (genId : String) (a : Val) : Val :=
  match a with
  | .obj fs => .obj (jsSet fs "id" (.vstr (theId genId a)))
  | v => v

/-- One entry of the `bulk` array: an `\x7b index: … \x7d` operation line or
a document line. -/
inductive BulkItem where
  | op (index : String) (id : String)
  | doc (body : Val)

structure IndexRequest where
  id : String
  index : String
  body : Val
  refresh : Bool

/-- `create` (`src/engine.ts` lines 269–303): validate (throwing on
failure, before any network call), then index one document with the
defaulted id and synchronous visibility, returning the body. -/
def createM (pattern genId : String) (a : Val) : Except Unit (IndexRequest × Val) :=
  if validateOSAction a then
    let body := withId genId a
    .ok (⟨theId genId a, getIndexNameV pattern a, body, true⟩, body)
  else .error ()

/-- The `actions?.forEach(...)` loop of `createMany`: validate each action
in order — aborting the whole call on the first failure, before the bulk
request exists — and push one op line and one document line per action. -/
def createManyAux (pattern : String) (gen : Nat → String) :
    List Val → Nat → List BulkItem → List Val →
    Except Unit (List BulkItem × List Val)
  | [], _, bulk, dbActions => .ok (bulk, dbActions)
  | a :: rest, i, bulk, dbActions =>
    if validateOSAction a then
      let body := withId (gen i) a
      createManyAux pattern gen rest (i + 1)
        (bulk ++ [.op (getIndexNameV pattern a) (theId (gen i) a), .doc body])
        (dbActions ++ [body])
    else .error ()

/-- `createMany` (`src/engine.ts` lines 310–358): on success the single
bulk request body and the returned action list. -/
def createManyM (pattern : String) (gen : Nat → String) (actions : List Val) :
    Except Unit (List BulkItem × List Val) :=
  createManyAux pattern gen actions 0 [] []

theorem createManyAux_error (pattern : String) (gen : Nat → String)
    (actions : List Val) :
    ∀ i bulk outs, (∃ a ∈ actions, validateOSAction a = false) →
    createManyAux pattern gen actions i bulk outs = .error () := by
  induction actions with
  | nil => intro i bulk outs h; obtain ⟨a, ha, _⟩ := h; simp at ha
  | cons hd tl ih =>
    intro i bulk outs h
    obtain ⟨a, ha, hv⟩ := h
    rcases List.mem_cons.1 ha with rfl | hmem
    · simp [createManyAux, hv]
    · by_cases hhd : validateOSAction hd = true
      · simp only [createManyAux, hhd, if_true]
        exact ih _ _ _ ⟨a, hmem, hv⟩
      · simp [createManyAux, hhd]

theorem createManyAux_ok (pattern : String) (gen : Nat → String)
    (actions : List Val) :
    ∀ i bulk outs, (∀ a ∈ actions, validateOSAction a = true) →
    createManyAux pattern gen actions i bulk outs =
      .ok (bulk ++ (List.enumFrom i actions).flatMap
            (fun p => [BulkItem.op (getIndexNameV pattern p.2) (theId (gen p.1) p.2),
                       BulkItem.doc (withId (gen p.1) p.2)]),
           outs ++ (List.enumFrom i actions).map fun p => withId (gen p.1) p.2) := by
  induction actions with
  | nil => intro i bulk outs _; simp [createManyAux]
  | cons hd tl ih =>
    intro i bulk outs hall
    have hhd : validateOSAction hd = true := hall hd (by simp)
    simp only [createManyAux, hhd, if_true]
    rw [ih (i + 1) _ _ fun a ha => hall a (by simp [ha])]
    simp [List.enumFrom, List.flatMap_cons]

/-! ### The singleton-collapse invariant -/

mutual

/-- No `bool.must`/`bool.should` wrapper anywhere in the clause carries
exactly one element. -/
def noSingleton : Clause → Bool
  | .term _ _ => true
  | .termsQ _ _ => true
  | .range _ _ _ => true
  | .rangeN _ _ _ => true
  | .nested _ q => noSingleton q
  | .boolMust xs => decide (xs.length ≠ 1) && noSingletonL xs
  | .boolShould xs => decide (xs.length ≠ 1) && noSingletonL xs

def noSingletonL : List Clause → Bool
  | [] => true
  | c :: cs => noSingleton c && noSingletonL cs

end

theorem noSingletonL_append (xs ys : List Clause) :
    noSingletonL (xs ++ ys) = (noSingletonL xs && noSingletonL ys) := by
  induction xs with
  | nil => simp [noSingletonL]
  | cons hd tl ih => simp [noSingletonL, ih, Bool.and_assoc]

theorem noSingletonL_flatMap (l : List α) (f : α → List Clause)
    (h : ∀ a ∈ l, noSingletonL (f a) = true) :
    noSingletonL (l.flatMap f) = true := by
  induction l with
  | nil => rfl
  | cons hd tl ih =>
    rw [List.flatMap_cons, noSingletonL_append, h hd (by simp),
      ih fun a ha => h a (by simp [ha])]
    rfl

theorem noSingleton_boolMust_of (xs : List Clause) (hlen : xs.length ≠ 1)
    (h : noSingletonL xs = true) : noSingleton (Clause.boolMust xs) = true := by
  simp [noSingleton, hlen, h]

theorem noSingleton_boolShould_of (xs : List Clause) (hlen : xs.length ≠ 1)
    (h : noSingletonL xs = true) : noSingleton (Clause.boolShould xs) = true := by
  simp [noSingleton, hlen, h]

theorem noSingletonL_collapse1_must (xs : List Clause) (h : noSingletonL xs = true) :
    noSingletonL (collapse1 Clause.boolMust xs) = true := by
  match xs with
  | [] => rfl
  | [x] => simpa [collapse1, noSingletonL] using h
  | x :: y :: t =>
    simp only [collapse1, noSingletonL]
    rw [noSingleton_boolMust_of _ (by simp) h]
    rfl

theorem noSingletonL_collapse1_should (xs : List Clause) (h : noSingletonL xs = true) :
    noSingletonL (collapse1 Clause.boolShould xs) = true := by
  match xs with
  | [] => rfl
  | [x] => simpa [collapse1, noSingletonL] using h
  | x :: y :: t =>
    simp only [collapse1, noSingletonL]
    rw [noSingleton_boolShould_of _ (by simp) h]
    rfl

theorem noSingleton_collapseNE_must (xs : List Clause) (h : noSingletonL xs = true) :
    noSingleton (collapseNE Clause.boolMust xs) = true := by
  match xs with
  | [] => rfl
  | [x] => simpa [collapseNE, noSingletonL] using h
  | x :: y :: t => exact noSingleton_boolMust_of _ (by simp) h

theorem noSingleton_collapseNE_should (xs : List Clause) (h : noSingletonL xs = true) :
    noSingleton (collapseNE Clause.boolShould xs) = true := by
  match xs with
  | [] => rfl
  | [x] => simpa [collapseNE, noSingletonL] using h
  | x :: y :: t => exact noSingleton_boolShould_of _ (by simp) h

theorem noSingletonL_optTerm (field : String) (v : Option String) :
    noSingletonL (optTerm field v) = true := by
  cases v with
  | none => rfl
  | some s =>
    by_cases hs : s = "" <;> simp [optTerm, hs, noSingletonL, noSingleton]

theorem noSingletonL_metaPairs (path : String) (m : List (String × String)) :
    noSingletonL (metaPairs path m) = true := by
  refine noSingletonL_flatMap m _ fun kv _ => ?_
  simp [noSingletonL, noSingleton]

theorem noSingletonL_entityMetaClause (path : String)
    (meta : Option (List (String × String))) :
    noSingletonL (entityMetaClause path meta) = true := by
  cases meta with
  | none => rfl
  | some m =>
    by_cases hm : m.isEmpty
    · simp [entityMetaClause, hm, noSingletonL]
    · simp only [entityMetaClause, hm, if_false, noSingletonL, noSingleton]
      rw [noSingleton_collapseNE_must _ (noSingletonL_metaPairs _ m)]
      rfl

theorem noSingletonL_agentMust (path : String) (a : AgentFilter) :
    noSingletonL (agentMust path a) = true := by
  simp only [agentMust, noSingletonL_append, noSingletonL_optTerm,
    noSingletonL_entityMetaClause, Bool.and_self, Bool.and_true, Bool.true_and]

theorem noSingletonL_entityClauses (path : String)
    (ent : Option (OneOrMany AgentFilter)) :
    noSingletonL (entityClauses path ent) = true := by
  cases ent with
  | none => rfl
  | some ag =>
    simp only [entityClauses]
    have hxs : noSingletonL (ag.asList.flatMap fun a =>
        collapse1 Clause.boolMust (agentMust path a)) = true :=
      noSingletonL_flatMap _ _ fun a _ =>
        noSingletonL_collapse1_must _ (noSingletonL_agentMust path a)
    cases hc : ag.asList.flatMap fun a => collapse1 Clause.boolMust (agentMust path a) with
    | nil => rfl
    | cons x t =>
      rw [hc] at hxs
      simp only [noSingletonL, noSingleton]
      rw [noSingleton_collapseNE_should _ hxs]
      rfl

theorem noSingletonL_changeMust (c : ChangeFilter) :
    noSingletonL (changeMust c) = true := by
  simp only [changeMust, noSingletonL_append, noSingletonL_optTerm,
    noSingletonL_entityMetaClause, Bool.and_self, Bool.and_true, Bool.true_and]

theorem noSingletonL_changesClauses (filters : FindActionFilters) :
    noSingletonL (changesClauses filters) = true := by
  cases hch : filters.changes with
  | none => simp [changesClauses, hch, noSingletonL]
  | some ch =>
    simp only [changesClauses, hch]
    have hxs : noSingletonL (ch.asList.flatMap fun c =>
        collapse1 Clause.boolMust (changeMust c)) = true :=
      noSingletonL_flatMap _ _ fun c _ =>
        noSingletonL_collapse1_must _ (noSingletonL_changeMust c)
    cases hc : ch.asList.flatMap fun c => collapse1 Clause.boolMust (changeMust c) with
    | nil => rfl
    | cons x t =>
      rw [hc] at hxs
      simp only [noSingletonL, noSingleton]
      rw [noSingleton_collapseNE_should _ hxs]
      rfl

theorem noSingletonL_requestMustOfKey (k : String) (v : ReqFilterVal) :
    noSingletonL (requestMustOfKey k v) = true := by
  cases v with
  | obj m =>
    simp only [requestMustOfKey]
    induction m with
    | nil => rfl
    | cons hd tl ih =>
      simp only [List.map_cons, noSingletonL]
      rw [ih]
      simp [noSingleton, noSingletonL]
  | s sv => simp [requestMustOfKey, noSingletonL, noSingleton]

theorem noSingletonL_requestClauses (filters : FindActionFilters) :
    noSingletonL (requestClauses filters) = true := by
  cases hr : filters.request with
  | none => simp [requestClauses, hr, noSingletonL]
  | some rq =>
    simp only [requestClauses, hr]
    refine noSingletonL_collapse1_should _ (noSingletonL_flatMap _ _ fun r _ => ?_)
    refine noSingletonL_collapse1_must _ (noSingletonL_flatMap _ _ fun kv _ => ?_)
    exact noSingletonL_requestMustOfKey kv.1 kv.2

theorem noSingletonL_responseMapClauses (path : String)
    (maps : Option (OneOrMany (List (String × String)))) :
    noSingletonL (responseMapClauses path maps) = true := by
  cases maps with
  | none => rfl
  | some ms =>
    simp only [responseMapClauses]
    refine noSingletonL_collapse1_should _ (noSingletonL_flatMap _ _ fun m _ => ?_)
    have hps := noSingletonL_metaPairs path m
    cases hc : metaPairs path m with
    | nil => rfl
    | cons x t =>
      rw [hc] at hps
      simp only [noSingletonL, noSingleton]
      rw [noSingleton_collapseNE_must _ hps]
      rfl

theorem noSingletonL_responseClauses (filters : FindActionFilters) :
    noSingletonL (responseClauses filters) = true := by
  cases hr : filters.response with
  | none => simp [responseClauses, hr, noSingletonL]
  | some r =>
    simp only [responseClauses, hr]
    refine noSingletonL_collapse1_must _ ?_
    rw [noSingletonL_append, noSingletonL_append, noSingletonL_append]
    have h1 : noSingletonL (match r.status with
        | none => []
        | some (.one s) => if s = "" then [] else [Clause.term "response.status" s]
        | some (.many xs) => [Clause.termsQ "response.status" xs]) = true := by
      match hs : r.status with
      | none => rfl
      | some (.one s) => by_cases h : s = "" <;> simp [h, noSingletonL, noSingleton]
      | some (.many xs) => simp [noSingletonL, noSingleton]
    have h2 : noSingletonL (match r.time with
        | none => []
        | some t =>
          if truthyNum t.gte || truthyNum t.lt then
            [Clause.rangeN "response.time"
              (if truthyNum t.gte then t.gte else none)
              (if truthyNum t.lt then t.lt else none)]
          else []) = true := by
      match ht : r.time with
      | none => rfl
      | some t =>
        by_cases h : (truthyNum t.gte || truthyNum t.lt) = true <;>
          simp [h, noSingletonL, noSingleton]
    rw [h1, h2, noSingletonL_responseMapClauses, noSingletonL_responseMapClauses]
    rfl

theorem noSingletonL_frameworkClauses (filters : FindActionFilters) :
    noSingletonL (frameworkClauses filters) = true := by
  cases hf : filters.framework with
  | none => simp [frameworkClauses, hf, noSingletonL]
  | some fw =>
    simp only [frameworkClauses, hf]
    refine noSingletonL_collapse1_should _ (noSingletonL_flatMap _ _ fun f _ => ?_)
    refine noSingletonL_collapse1_must _ ?_
    simp [frameworkMust, noSingletonL_append, noSingletonL_optTerm]

theorem noSingletonL_actionClauses (filters : FindActionFilters) :
    noSingletonL (actionClauses filters) = true := by
  cases ha : filters.action with
  | none => simp [actionClauses, ha, noSingletonL]
  | some ac =>
    simp only [actionClauses, ha]
    refine noSingletonL_collapse1_should _ (noSingletonL_flatMap _ _ fun a _ => ?_)
    refine noSingletonL_collapse1_must _ ?_
    simp [actionMust, noSingletonL_append, noSingletonL_optTerm]

theorem noSingletonL_metaMust (m : List (String × String)) :
    noSingletonL (metaMust m) = true := by
  simp only [metaMust]
  induction m with
  | nil => rfl
  | cons hd tl ih =>
    simp only [List.map_cons, noSingletonL]
    rw [ih]
    simp [noSingleton, noSingletonL]

theorem noSingletonL_metaClauses (filters : FindActionFilters) :
    noSingletonL (metaClauses filters) = true := by
  cases hm : filters.meta with
  | none => simp [metaClauses, hm, noSingletonL]
  | some ms =>
    simp only [metaClauses, hm]
    refine noSingletonL_collapse1_should _ (noSingletonL_flatMap _ _ fun m _ => ?_)
    exact noSingletonL_collapse1_must _ (noSingletonL_metaMust m)

theorem noSingletonL_scalarClauses (filters : FindActionFilters) :
    noSingletonL (scalarClauses filters) = true := by
  simp only [scalarClauses, noSingletonL_append]
  repeat' rw [show ∀ (b : Bool) (f : String) (xs : List String),
    noSingletonL (if b then [Clause.termsQ f xs] else []) = true by
      intro b f xs; cases b <;> simp [noSingletonL, noSingleton]]
  rfl

theorem noSingletonL_baseClauses (d : Nat) (now : DT) (filters : FindActionFilters) :
    noSingletonL (baseClauses d now filters) = true := by
  simp [baseClauses, noSingletonL, noSingleton]

/-- The whole compiled clause list satisfies the invariant. -/
theorem noSingletonL_buildFindManyQuery (d : Nat) (now : DT)
    (filters : FindActionFilters) :
    noSingletonL (buildFindManyQuery d now filters) = true := by
  simp only [buildFindManyQuery, noSingletonL_append]
  rw [noSingletonL_baseClauses, noSingletonL_scalarClauses,
    noSingletonL_frameworkClauses, noSingletonL_actionClauses,
    noSingletonL_entityClauses, noSingletonL_entityClauses,
    noSingletonL_requestClauses, noSingletonL_responseClauses,
    noSingletonL_changesClauses, noSingletonL_metaClauses]
  rfl

/-! ### Supporting lemmas for the claim theorems -/

theorem collapse1_collapse1 (w1 w2 : List Clause → Clause) (xs : List Clause) :
    collapse1 w2 (collapse1 w1 xs) = collapse1 w1 xs := by
  match xs with
  | [] => rfl
  | [x] => rfl
  | x :: y :: t => rfl

theorem collapseNE_metaPairs (path : String) (kv : String × String)
    (rest : List (String × String)) :
    collapseNE Clause.boolMust (metaPairs path (kv :: rest)) =
      Clause.boolMust (metaPairs path (kv :: rest)) := by
  rfl

theorem length_flatMap_pairs (l : List α) (f g : α → β) :
    (l.flatMap fun a => [f a, g a]).length = 2 * l.length := by
  induction l with
  | nil => rfl
  | cons hd tl ih =>
    simp only [List.flatMap_cons, List.length_append, ih, List.length_cons,
      List.length_nil]
    omega

/-- The `meta` section of a one-map filter collapses to one independent
nested clause per key (AND-wrapped only when there are two or more keys). -/
theorem metaClauses_one (c : String) (m : List (String × String)) :
    metaClauses { companyId := c, meta := some (.one m) } =
      collapse1 Clause.boolMust (metaMust m) := by
  simp only [metaClauses, OneOrMany.asList, List.flatMap_cons, List.flatMap_nil,
    List.append_nil]
  exact collapse1_collapse1 _ _ _

/-- The `agents`/`targets` section of a one-candidate filter whose candidate
has only a (non-empty) meta sub-filter: a single shared nested meta clause
holding every key's term pair. -/
theorem entityClauses_meta_only (path : String) (m : List (String × String))
    (hm : m ≠ []) :
    entityClauses path (some (.one ⟨none, none, none, some m⟩)) =
      [Clause.nested path
        (Clause.nested (path ++ ".meta") (Clause.boolMust (metaPairs (path ++ ".meta") m)))] := by
  match m, hm with
  | kv :: rest, _ =>
    simp only [entityClauses, OneOrMany.asList, List.flatMap_cons, List.flatMap_nil,
      List.append_nil, agentMust, optTerm, entityMetaClause, List.isEmpty_cons,
      List.nil_append, if_false, Bool.false_eq_true]
    rfl

/-- The `changes` section of a one-candidate filter with only a (non-empty)
meta sub-filter: the same single shared nested clause shape. -/
theorem changesClauses_meta_only (c : String) (m : List (String × String))
    (hm : m ≠ []) :
    changesClauses { companyId := c, changes := some (.one ⟨none, none, none, none, none, none, some m⟩) } =
      [Clause.nested "changes"
        (Clause.nested "changes.meta" (Clause.boolMust (metaPairs "changes.meta" m)))] := by
  match m, hm with
  | kv :: rest, _ =>
    simp only [changesClauses, OneOrMany.asList, List.flatMap_cons, List.flatMap_nil,
      List.append_nil, changeMust, optTerm, entityMetaClause, List.isEmpty_cons,
      List.nil_append, if_false, Bool.false_eq_true]
    rfl

/-! ### Concrete fixtures -/

/-- A fixed "now" instant for concrete evaluations. -/
def dtNow0 : DT := ⟨2025, 1, 1, 0, 0, 0, 0⟩

/-- An action whose request holds the key `"a"` with the string leaf `""`. -/
def exActionC1 : Action :=
  ⟨none, "2024-01-01T00:00:00.000Z", some "c1", none, none, none, none, none,
    none, ⟨none, "HTTP", "POST", none⟩, [], none, some [("a", Val.vstr "")],
    none, none, none, none⟩

/-- A representative well-formed action: agent metadata with a non-string
leaf, a request with a nested sub-object, top-level metadata. -/
def aW : Action :=
  ⟨some "id1", "2024-01-01T00:00:00.000Z", some "c1", none, none, none, none,
    none, none, ⟨none, "HTTP", "POST", none⟩,
    [⟨some "ag1", "USER", none, some [("role", Val.vstr "admin"), ("age", Val.vint 30)]⟩],
    none,
    some [("url", Val.vstr "/x"), ("body", Val.obj [("tx", Val.vstr "t1"), ("n", Val.vint 2)])],
    none, none, none, some [("imp", Val.vstr "high")]⟩

theorem aW_wf : WFAction aW := by
  refine ⟨?_, ?_, ?_, ?_, ?_, ?_, ?_⟩
  · intro ag hmem
    simp only [aW, List.mem_singleton] at hmem
    subst hmem
    intro m hm
    simp only [Option.some.injEq] at hm
    subst hm
    simp only [uniqKeys]
    decide
  · intro ts hts
    simp [aW] at hts
  · intro req hreq
    simp only [aW, Option.some.injEq] at hreq
    subst hreq
    refine ⟨by simp only [uniqKeys]; decide, ?_⟩
    intro kv hkv
    simp only [List.mem_cons, List.not_mem_nil, or_false] at hkv
    rcases hkv with rfl | rfl
    · trivial
    · simp only [uniqKeys]
      decide
  · intro r hr
    simp [aW] at hr
  · intro cs hcs
    simp [aW] at hcs
  · intro c hc
    simp [aW] at hc
  · intro m hm
    simp only [aW, Option.some.injEq] at hm
    subst hm
    simp only [uniqKeys]
    decide

/-- An action whose nested request field holds a non-string leaf. -/
def exActionC4 : Action :=
  ⟨none, "2024-01-01T00:00:00.000Z", some "c1", none, none, none, none, none,
    none, ⟨none, "HTTP", "POST", none⟩, [], none,
    some [("params", Val.obj [("count", Val.vint 2)])], none, none, none, none⟩

/-! ### The claims -/

/-- C1 (counterexample): the round-trip claim fails as stated — an action
whose request carries the key `"a"` with the (well-formed) string leaf `""`
loses that key entirely, because `serialize` filters out entries with a
falsy stored value. -/
theorem claim_C1_counterexample :
    exActionC1.request = some [("a", Val.vstr "")] ∧
    (deserialize (serialize exActionC1)).request = some [] ∧
    (some [] : Option (List (String × Val))) ≠ some [("a", Val.vstr "")] :=
  ⟨rfl, rfl, by simp⟩

/-- C1 (amended): for every Action with duplicate-free keys in its metadata
maps and request, `deserialize (serialize a)` equals the canonical
stringified form of `a` — strings verbatim, non-string metadata leaves
JSON-encoded, nested non-string request leaves replaced by the JSON of their
enclosing sub-object, request entries whose stored string is empty (and
sub-objects left empty) dropped, falsy `changes[].before/after` dropped —
and the transform is idempotent once in that form. -/
theorem claim_C1_round_trip (a : Action) (h : WFAction a) :
    deserialize (serialize a) = canonAction a ∧
    deserialize (serialize (canonAction a)) = canonAction a :=
  ⟨deserialize_serialize a h,
   by rw [deserialize_serialize (canonAction a) (WFAction_canon a h), canonAction_idem]⟩

theorem claim_C1_witness :
    WFAction aW ∧
    (deserialize (serialize aW) = canonAction aW ∧
      deserialize (serialize (canonAction aW)) = canonAction aW) :=
  ⟨aW_wf, claim_C1_round_trip aW aW_wf⟩

/-- C2 (counterexample): a two-key agents meta sub-filter compiles to ONE
shared `nested("agents.meta", bool.must [four terms])` clause, not to one
independent nested clause per key as the claim states. -/
theorem claim_C2_counterexample :
    buildFindManyQuery 6 dtNow0
      { companyId := "123", start := some "2024-07-01T00:00:00.000Z",
        stop := some "2024-08-31T23:59:59.999Z",
        agents := some (.one ⟨none, none, none, some [("k1", "v1"), ("k2", "v2")]⟩) } =
      [Clause.term "companyId" "123",
       Clause.range "timestamp" (some "2024-07-01T00:00:00.000Z")
         (some "2024-08-31T23:59:59.999Z"),
       Clause.nested "agents" (Clause.nested "agents.meta" (Clause.boolMust
         [Clause.term "agents.meta.key" "k1", Clause.term "agents.meta.value.keyword" "v1",
          Clause.term "agents.meta.key" "k2", Clause.term "agents.meta.value.keyword" "v2"]))] ∧
    Clause.nested "agents" (Clause.nested "agents.meta" (Clause.boolMust
      [Clause.term "agents.meta.key" "k1", Clause.term "agents.meta.value.keyword" "v1",
       Clause.term "agents.meta.key" "k2", Clause.term "agents.meta.value.keyword" "v2"])) ≠
    Clause.nested "agents" (Clause.boolMust
      [Clause.nested "agents.meta" (Clause.boolMust
        [Clause.term "agents.meta.key" "k1", Clause.term "agents.meta.value.keyword" "v1"]),
       Clause.nested "agents.meta" (Clause.boolMust
        [Clause.term "agents.meta.key" "k2", Clause.term "agents.meta.value.keyword" "v2"])]) :=
  ⟨rfl, by simp⟩

/-- C2 (amended): the per-key independent nested clause rule holds for the
top-level `meta` filter only; for the meta sub-filter of an agents, targets
or changes candidate, all key/value term pairs share a single
`nested(path.meta, bool.must [...])` clause. -/
theorem claim_C2_meta_combinators (d : Nat) (now : DT) (c : String)
    (m : List (String × String)) (hm : m ≠ []) :
    buildFindManyQuery d now { companyId := c, meta := some (.one m) } =
      baseClauses d now { companyId := c, meta := some (.one m) } ++
        collapse1 Clause.boolMust (m.map fun kv =>
          Clause.nested "meta" (Clause.boolMust
            [Clause.term "meta.key" kv.1, Clause.term "meta.value.keyword" kv.2])) ∧
    buildFindManyQuery d now
        { companyId := c, agents := some (.one ⟨none, none, none, some m⟩) } =
      baseClauses d now { companyId := c, agents := some (.one ⟨none, none, none, some m⟩) } ++
        [Clause.nested "agents" (Clause.nested "agents.meta"
          (Clause.boolMust (metaPairs "agents.meta" m)))] ∧
    buildFindManyQuery d now
        { companyId := c, targets := some (.one ⟨none, none, none, some m⟩) } =
      baseClauses d now { companyId := c, targets := some (.one ⟨none, none, none, some m⟩) } ++
        [Clause.nested "targets" (Clause.nested "targets.meta"
          (Clause.boolMust (metaPairs "targets.meta" m)))] ∧
    buildFindManyQuery d now
        { companyId := c, changes := some (.one ⟨none, none, none, none, none, none, some m⟩) } =
      baseClauses d now
          { companyId := c, changes := some (.one ⟨none, none, none, none, none, none, some m⟩) } ++
        [Clause.nested "changes" (Clause.nested "changes.meta"
          (Clause.boolMust (metaPairs "changes.meta" m)))] := by
  refine ⟨?_, ?_, ?_, ?_⟩
  · simp only [buildFindManyQuery, metaClauses_one]
    simp [scalarClauses, frameworkClauses, actionClauses, entityClauses,
      requestClauses, responseClauses, changesClauses, truthySOL, metaMust]
  · simp only [buildFindManyQuery]
    rw [entityClauses_meta_only "agents" m hm]
    simp [scalarClauses, frameworkClauses, actionClauses, entityClauses,
      requestClauses, responseClauses, changesClauses, metaClauses, truthySOL]
  · simp only [buildFindManyQuery]
    rw [entityClauses_meta_only "targets" m hm]
    simp [scalarClauses, frameworkClauses, actionClauses, entityClauses,
      requestClauses, responseClauses, changesClauses, metaClauses, truthySOL]
  · simp only [buildFindManyQuery]
    rw [changesClauses_meta_only c m hm]
    simp [scalarClauses, frameworkClauses, actionClauses, entityClauses,
      requestClauses, responseClauses, metaClauses, truthySOL]

theorem claim_C2_witness :
    ([("k1", "v1"), ("k2", "v2")] : List (String × String)) ≠ [] ∧
    buildFindManyQuery 6 dtNow0
        { companyId := "c", meta := some (.one [("k1", "v1"), ("k2", "v2")]) } =
      baseClauses 6 dtNow0
          { companyId := "c", meta := some (.one [("k1", "v1"), ("k2", "v2")]) } ++
        collapse1 Clause.boolMust ([("k1", "v1"), ("k2", "v2")].map fun kv =>
          Clause.nested "meta" (Clause.boolMust
            [Clause.term "meta.key" kv.1, Clause.term "meta.value.keyword" kv.2])) :=
  ⟨by simp,
   (claim_C2_meta_combinators 6 dtNow0 "c" [("k1", "v1"), ("k2", "v2")] (by simp)).1⟩

/-- C3: over `start = 2024-07-01T00:00:00Z`, `end = 2024-08-31T23:59:59Z`
the code returns the August index name twice — each month bucket is named
from its END boundary, so the July bucket (ending Aug 1) also resolves to
August and the July index is never searched.  The claimed
`actions_c1_2024_07,actions_c1_2024_08` is what the write path
(`getIndexName`) would require. -/
theorem claim_C3_index_range :
    getIndexNameRange defaultIndexPattern 6 dtNow0 "c1"
        (some "2024-07-01T00:00:00Z") (some "2024-08-31T23:59:59Z") =
      "actions_c1_2024_08,actions_c1_2024_08" ∧
    ("actions_c1_2024_08,actions_c1_2024_08" : String) ≠
      "actions_c1_2024_07,actions_c1_2024_08" ∧
    getIndexName defaultIndexPattern (some "c1") "2024-07-15T10:00:00Z" =
      "actions_c1_2024_07" :=
  ⟨by decide, by decide, by decide⟩

/-- C4: for `request = \x7b params: \x7b count: 2 \x7d \x7d` the stored
value is the JSON encoding of the WHOLE sub-object (`\x7b"count":2\x7d`),
not of the leaf (`2`), because the source's nested branch stringifies
`value` instead of `nestedValue`. -/
theorem claim_C4_nested_request_value :
    (serialize exActionC4).request =
      some [⟨"count", some "params", "\x7b\"count\":2\x7d"⟩] ∧
    jsonStr (Val.vint 2) = "2" ∧
    ("\x7b\"count\":2\x7d" : String) ≠ "2" :=
  ⟨rfl, by decide, by decide⟩

/-- C5: `buildFindManyQuery` never reads `filters.query`: with a free-text
query present the result is just the two base clauses — no trailing
`bool.should` battery is appended, although the repository's own test suite
expects one. -/
theorem claim_C5_query_ignored :
    buildFindManyQuery 6 dtNow0
      { companyId := "123", start := some "2024-07-01T00:00:00.000Z",
        stop := some "2024-08-31T23:59:59.999Z", query := some "abc123" } =
    [Clause.term "companyId" "123",
     Clause.range "timestamp" (some "2024-07-01T00:00:00.000Z")
       (some "2024-08-31T23:59:59.999Z")] := rfl

/-- C6: `removeSensitiveKeys`/`breakCircularReferences` does NOT terminate
on every cyclic input: on `a = \x7b d: [b] \x7d`, `b = \x7b e: [a] \x7d`
(a cycle through two arrays) every fuel bound is exhausted — the ancestor
check only guards object-valued properties and array elements identical to
the immediately enclosing object, so this recursion never ends. -/
theorem claim_C6_cycle_divergence :
    ∀ fuel : Nat, rskF fuel cycHeap (.ptr 0) [] [] = none :=
  fun fuel => (rskF_cycHeap_aux fuel [] rfl rfl).1

/-- C7: no `bool.should`/`bool.must` wrapper anywhere in the compiled
clause list has exactly one element, and the collapse step used at every
site emits a singleton group bare and wraps a group of two or more. -/
theorem claim_C7_singleton_collapse (d : Nat) (now : DT) (filters : FindActionFilters) :
    noSingletonL (buildFindManyQuery d now filters) = true ∧
    (∀ (w : List Clause → Clause) (x : Clause), collapse1 w [x] = [x]) ∧
    (∀ (w : List Clause → Clause) (x y : Clause) (t : List Clause),
      collapse1 w (x :: y :: t) = [w (x :: y :: t)]) ∧
    (∀ (w : List Clause → Clause) (x : Clause), collapseNE w [x] = x) ∧
    (∀ (w : List Clause → Clause) (x y : Clause) (t : List Clause),
      collapseNE w (x :: y :: t) = w (x :: y :: t)) :=
  ⟨noSingletonL_buildFindManyQuery d now filters,
   fun _ _ => rfl, fun _ _ _ _ => rfl, fun _ _ => rfl, fun _ _ _ _ => rfl⟩

/-- C8: the compiled list always starts with `term(companyId)` followed by
the timestamp range whose bounds are the UTC ISO-8601 renderings of the
parsed `start`/`end` (or of `now − defaultStartMonthsAgo` / `now`); with
only a `companyId` filter those are the only clauses. -/
theorem claim_C8_base_clauses (d : Nat) (now : DT) (f : FindActionFilters)
    (hs : ∀ s, f.start = some s → s ≠ "" → (fromISO s).isSome = true)
    (he : ∀ s, f.stop = some s → s ≠ "" → (fromISO s).isSome = true) :
    (∃ gdt ldt : DT,
      (buildFindManyQuery d now f).take 2 =
        [Clause.term "companyId" f.companyId,
         Clause.range "timestamp" (some (toISO gdt)) (some (toISO ldt))] ∧
      (match f.start with
       | some s => if s = "" then gdt = minusMonths now d else fromISO s = some gdt
       | none => gdt = minusMonths now d) ∧
      (match f.stop with
       | some s => if s = "" then ldt = now else fromISO s = some ldt
       | none => ldt = now)) ∧
    (∀ cid, buildFindManyQuery d now { companyId := cid } =
      [Clause.term "companyId" cid,
       Clause.range "timestamp" (some (toISO (minusMonths now d))) (some (toISO now))]) := by
  constructor
  · have hgdt : ∃ gdt : DT,
        (match f.start with
         | some s =>
           if s = "" then some (toISO (minusMonths now d))
           else (fromISO s).map toISO
         | none => some (toISO (minusMonths now d))) = some (toISO gdt) ∧
        (match f.start with
         | some s => if s = "" then gdt = minusMonths now d else fromISO s = some gdt
         | none => gdt = minusMonths now d) := by
      match hfs : f.start with
      | none => exact ⟨minusMonths now d, rfl, rfl⟩
      | some s =>
        by_cases hse : s = ""
        · exact ⟨minusMonths now d, by simp [hse], by simp [hse]⟩
        · obtain ⟨dt, hdt⟩ := Option.isSome_iff_exists.1 (hs s hfs hse)
          exact ⟨dt, by simp [hse, hdt], by simp [hse, hdt]⟩
    have hldt : ∃ ldt : DT,
        (match f.stop with
         | some s => if s = "" then some (toISO now) else (fromISO s).map toISO
         | none => some (toISO now)) = some (toISO ldt) ∧
        (match f.stop with
         | some s => if s = "" then ldt = now else fromISO s = some ldt
         | none => ldt = now) := by
      match hfe : f.stop with
      | none => exact ⟨now, rfl, rfl⟩
      | some s =>
        by_cases hse : s = ""
        · exact ⟨now, by simp [hse], by simp [hse]⟩
        · obtain ⟨dt, hdt⟩ := Option.isSome_iff_exists.1 (he s hfe hse)
          exact ⟨dt, by simp [hse, hdt], by simp [hse, hdt]⟩
    obtain ⟨gdt, hg1, hg2⟩ := hgdt
    obtain ⟨ldt, hl1, hl2⟩ := hldt
    refine ⟨gdt, ldt, ?_, hg2, hl2⟩
    show (baseClauses d now f ++ _).take 2 = _
    simp only [baseClauses, List.cons_append, List.nil_append, List.take_succ_cons,
      List.take_zero]
    rw [hg1, hl1]
  · intro cid
    rfl

theorem claim_C8_witness :
    (∀ s, (some "2024-07-01T00:00:00.000Z" : Option String) = some s → s ≠ "" →
      (fromISO s).isSome = true) ∧
    (∃ gdt ldt : DT,
      (buildFindManyQuery 6 dtNow0
        { companyId := "123", start := some "2024-07-01T00:00:00.000Z",
          stop := some "2024-08-31T23:59:59.999Z" }).take 2 =
        [Clause.term "companyId" "123",
         Clause.range "timestamp" (some (toISO gdt)) (some (toISO ldt))] ∧
      (match (some "2024-07-01T00:00:00.000Z" : Option String) with
       | some s => if s = "" then gdt = minusMonths dtNow0 6 else fromISO s = some gdt
       | none => gdt = minusMonths dtNow0 6) ∧
      (match (some "2024-08-31T23:59:59.999Z" : Option String) with
       | some s => if s = "" then ldt = dtNow0 else fromISO s = some ldt
       | none => ldt = dtNow0)) := by
  have h1 : ∀ s, (some "2024-07-01T00:00:00.000Z" : Option String) = some s → s ≠ "" →
      (fromISO s).isSome = true := by
    intro s hsome _
    cases hsome
    decide
  have h2 : ∀ s, (some "2024-08-31T23:59:59.999Z" : Option String) = some s → s ≠ "" →
      (fromISO s).isSome = true := by
    intro s hsome _
    cases hsome
    decide
  exact ⟨h1, (claim_C8_base_clauses 6 dtNow0
    { companyId := "123", start := some "2024-07-01T00:00:00.000Z",
      stop := some "2024-08-31T23:59:59.999Z" } h1 h2).1⟩

/-- C9: `createMany` validates every action before the bulk request exists:
any invalid element aborts the whole call with no bulk request constructed,
and when all elements validate the single bulk body carries two lines (one
op, one document) for every action of the batch. -/
theorem claim_C9_batch_validation (pattern : String) (gen : Nat → String)
    (actions : List Val) :
    ((∃ a ∈ actions, validateOSAction a = false) →
      createManyM pattern gen actions = .error ()) ∧
    ((∀ a ∈ actions, validateOSAction a = true) →
      ∃ bulk outs, createManyM pattern gen actions = .ok (bulk, outs) ∧
        bulk.length = 2 * actions.length ∧ outs.length = actions.length) := by
  constructor
  · intro h
    exact createManyAux_error pattern gen actions 0 [] [] h
  · intro h
    refine ⟨_, _, createManyAux_ok pattern gen actions 0 [] [] h, ?_, ?_⟩
    · simp only [List.nil_append]
      rw [length_flatMap_pairs]
      simp [List.enumFrom_length]
    · simp [List.enumFrom_length]

def goodActionV : Val :=
  Val.obj [("timestamp", Val.vstr "2024-01-15T00:00:00Z"),
           ("companyId", Val.vstr "c1"),
           ("action", Val.obj [("type", Val.vstr "HTTP"), ("verb", Val.vstr "POST")]),
           ("agents", Val.arr [])]

def badActionV : Val :=
  Val.obj [("action", Val.obj [("type", Val.vstr "HTTP"), ("verb", Val.vstr "POST")])]

theorem claim_C9_witness :
    createManyM defaultIndexPattern (fun _ => "uuid-1") [goodActionV, badActionV] =
      .error () ∧
    (∃ bulk outs,
      createManyM defaultIndexPattern (fun _ => "uuid-1") [goodActionV] =
        .ok (bulk, outs) ∧ bulk.length = 2 * 1 ∧ outs.length = 1) :=
  ⟨(claim_C9_batch_validation defaultIndexPattern (fun _ => "uuid-1")
      [goodActionV, badActionV]).1 ⟨badActionV, by simp, by decide⟩,
   (claim_C9_batch_validation defaultIndexPattern (fun _ => "uuid-1")
      [goodActionV]).2 (by decide)⟩

def badIdActionV : Val :=
  Val.obj [("id", Val.vstr ""),
           ("timestamp", Val.vstr "2024-01-15T00:00:00Z"),
           ("action", Val.obj [("type", Val.vstr "HTTP"), ("verb", Val.vstr "POST")]),
           ("agents", Val.arr [])]

/-- C10 (counterexample): an action whose `id` is the empty string — an id
it "already has" — does NOT keep it: `action.id || id` treats `""` as
falsy, so the generated id replaces it. -/
theorem claim_C10_counterexample :
    getField badIdActionV "id" = some (Val.vstr "") ∧
    getField (withId "uuid-1" badIdActionV) "id" = some (Val.vstr "uuid-1") ∧
    (Val.vstr "uuid-1") ≠ (Val.vstr "") :=
  ⟨rfl, rfl, by simp⟩

/-- C10 (amended): `create`/`createMany` return (and index) each action with
every field other than `id` unchanged; an absent or EMPTY-string id is
replaced by the generated id, while any non-empty id string is preserved
verbatim. -/
theorem claim_C10_id_defaulting (pattern genId : String) (gen : Nat → String)
    (a : Val) (hv : validateOSAction a = true) :
    createM pattern genId a =
      .ok (⟨theId genId a, getIndexNameV pattern a, withId genId a, true⟩,
           withId genId a) ∧
    (∀ k, k ≠ "id" → getField (withId genId a) k = getField a k) ∧
    (∀ s, getField a "id" = some (Val.vstr s) → s ≠ "" →
      getField (withId genId a) "id" = some (Val.vstr s)) ∧
    ((getField a "id" = none ∨ getField a "id" = some (Val.vstr "")) →
      getField (withId genId a) "id" = some (Val.vstr genId)) ∧
    (∀ actions : List Val, (∀ x ∈ actions, validateOSAction x = true) →
      ∃ bulk, createManyM pattern gen actions =
        .ok (bulk, (List.enumFrom 0 actions).map fun p => withId (gen p.1) p.2)) := by
  obtain ⟨fs, rfl⟩ : ∃ fs, a = Val.obj fs := by
    cases a with
    | obj fs => exact ⟨fs, rfl⟩
    | vstr s => simp [validateOSAction] at hv
    | vint n => simp [validateOSAction] at hv
    | vbool b => simp [validateOSAction] at hv
    | vnull => simp [validateOSAction] at hv
    | arr es => simp [validateOSAction] at hv
  refine ⟨?_, ?_, ?_, ?_, ?_⟩
  · simp [createM, hv]
  · intro k hk
    simp only [withId, getField]
    exact getKey_jsSet_other fs "id" k _ (fun hEq => hk hEq.symm)
  · intro s hsid hsne
    simp only [getField] at hsid
    simp only [withId, getField]
    rw [getKey_jsSet_same]
    simp [theId, getField, hsid, hsne]
  · intro hid
    simp only [getField] at hid
    simp only [withId, getField]
    rw [getKey_jsSet_same]
    rcases hid with hid | hid <;>
      simp [theId, getField, hid]
  · intro actions hall
    exact ⟨_, createManyAux_ok pattern gen actions 0 [] [] hall⟩

theorem claim_C10_witness :
    validateOSAction goodActionV = true ∧
    (∀ k, k ≠ "id" →
      getField (withId "uuid-1" goodActionV) k = getField goodActionV k) ∧
    ((getField goodActionV "id" = none ∨
        getField goodActionV "id" = some (Val.vstr "")) →
      getField (withId "uuid-1" goodActionV) "id" = some (Val.vstr "uuid-1")) :=
  ⟨by decide,
   (claim_C10_id_defaulting defaultIndexPattern "uuid-1" (fun _ => "uuid-1")
      goodActionV (by decide)).2.1,
   (claim_C10_id_defaulting defaultIndexPattern "uuid-1" (fun _ => "uuid-1")
      goodActionV (by decide)).2.2.2.1⟩

end AcroOS
